import Mathlib

/-
Verification of computor.py, a one-variable polynomial-equation solver
(degree at most 2).

Modelling conventions of this shallow embedding:
  * Python strings are modelled as `List Char`.
  * Python floats are modelled as exact rationals; arithmetic is exact.
    The fixed tolerance 1e-6 and the fixed-point output formats .2f / .6f
    are modelled over these exact values (round half to even).
  * The regex findall over the term pattern is modelled by a direct
    deterministic scanner: for this pattern, greedy matching of each
    optional piece followed by the required literal X never needs
    backtracking, and the final lazy quantifier over digits always
    consumes exactly one digit.
  * Exceptions (IndexError on a missing '=' side, ValueError from
    float/int, IndexError in parse_term) are modelled by Option: `none`
    means the reduction raises and main prints an error line instead of
    the three output lines.
-/

namespace Computor

/-- The fixed tolerance 1e-6 used throughout computor.py. -/
def eps : ℚ := 1 / 1000000

/-! ## Python dict of int -> float, as an insertion-ordered association list -/

abbrev CoeffMap := List (Nat × ℚ)

/-- Python dict lookup, coeffs[p] / coeffs.get(p): value at key p. -/
def dictGet : CoeffMap → Nat → Option ℚ
  | [], _ => none
  | (k, v) :: rest, p => if k = p then some v else dictGet rest p

/-- Python coeffs.get(p, d): lookup with default. -/
def dictGetD (m : CoeffMap) (p : Nat) (d : ℚ) : ℚ :=
  (dictGet m p).getD d

/-- Python coeffs[p] = v: replace in place when the key exists, else append. -/
def dictSet : CoeffMap → Nat → ℚ → CoeffMap
  | [], p, v => [(p, v)]
  | (k, w) :: rest, p, v =>
    if k = p then (k, v) :: rest else (k, w) :: dictSet rest p v

/-- Python coeffs.keys() in insertion order. -/
def dictKeys (m : CoeffMap) : List Nat :=
  m.map Prod.fst

/-- Python dict equality (==): the same keys bound to the same values. -/
def dictEquiv (m1 m2 : CoeffMap) : Prop :=
  ∀ p : Nat, dictGet m1 p = dictGet m2 p

/-! ## The term regex, as a deterministic scanner

The pattern of computor.py line 42 is  [+-]?\d*\.?\d*\*?X\^?\d+?  and
re.findall scans left to right, retrying one position further on failure.
Because every optional piece consumes characters that can never satisfy
the following mandatory literal, greedy matching without backtracking is
exact, and the trailing lazy one-or-more digits always matches exactly
one digit. -/

/-- Consume an optional leading sign character. -/
def takeSign : List Char → List Char × List Char
  | [] => ([], [])
  | c :: rest => if c = '+' ∨ c = '-' then ([c], rest) else ([], c :: rest)

/-- Consume a maximal run of decimal digits. -/
def takeDigits (cs : List Char) : List Char × List Char :=
  (cs.takeWhile Char.isDigit, cs.dropWhile Char.isDigit)

/-- Consume an optional decimal point. -/
def takeDot : List Char → List Char × List Char
  | '.' :: rest => (['.'], rest)
  | cs => ([], cs)

/-- Consume an optional literal asterisk. -/
def takeStar : List Char → List Char × List Char
  | '*' :: rest => (['*'], rest)
  | cs => ([], cs)

/-- After the mandatory X: an optional caret, then exactly one digit
(the lazy final quantifier of the pattern stops after one digit). -/
def matchTail : List Char → Option (List Char × List Char)
  | '^' :: c :: rest => if c.isDigit then some (['^', c], rest) else none
  | c :: rest => if c.isDigit then some ([c], rest) else none
  | [] => none

/-- One attempted match of the term pattern at the head of the input;
on success returns the matched token and the remaining characters. -/
def matchTermAt (cs : List Char) : Option (List Char × List Char) :=
  let s1 := takeSign cs
  let s2 := takeDigits s1.2
  let s3 := takeDot s2.2
  let s4 := takeDigits s3.2
  let s5 := takeStar s4.2
  match s5.2 with
  | 'X' :: r6 =>
    match matchTail r6 with
    | some (tl, rest) =>
      some (s1.1 ++ s2.1 ++ s3.1 ++ s4.1 ++ s5.1 ++ 'X' :: tl, rest)
    | none => none
  | _ => none

/-- re.findall of the term pattern, fuelled by the input length. -/
def findallAux : Nat → List Char → List (List Char)
  | 0, _ => []
  | fuel + 1, cs =>
    match cs with
    | [] => []
    | c :: rest =>
      match matchTermAt (c :: rest) with
      | some (tok, r) => tok :: findallAux fuel r
      | none => findallAux fuel rest

/-- re.findall(r'[+-]?\d*\.?\d*\*?X\^?\d+?', s): all term tokens of s. -/
def findall (cs : List Char) : List (List Char) :=
  findallAux cs.length cs

/-! ## Numeric literal parsing (Python int() and float() on the
digit-and-dot strings that reach them) -/

/-- Numeric value of a digit string (no validity check). -/
def digitsVal (cs : List Char) : Nat :=
  cs.foldl (fun a c => 10 * a + (c.toNat - 48)) 0

/-- Python int(s) on the sign-stripped strings reaching it: a nonempty
all-digit string; anything else raises (none). -/
def parseNat (cs : List Char) : Option Nat :=
  if cs ≠ [] ∧ cs.all Char.isDigit then some (digitsVal cs) else none

/-- Python float(s) on the sign-stripped strings reaching it: digits with
at most one decimal point and at least one digit; anything else raises. -/
def parseFloat (cs : List Char) : Option ℚ :=
  let ip := cs.takeWhile (fun c => c ≠ '.')
  let rest := cs.dropWhile (fun c => c ≠ '.')
  match rest with
  | [] =>
    if ip ≠ [] ∧ ip.all Char.isDigit then some (digitsVal ip) else none
  | _ :: fp =>
    if ('.' ∉ fp) ∧ (ip ≠ [] ∨ fp ≠ []) ∧ ip.all Char.isDigit ∧ fp.all Char.isDigit then
      some ((digitsVal ip : ℚ) + (digitsVal fp : ℚ) / (10 : ℚ) ^ fp.length)
    else none

/-! ## parse_term -/

/-- Boolean list-prefix test. -/
def isPrefList : List Char → List Char → Bool
  | [], _ => true
  | _ :: _, [] => false
  | a :: as_, b :: bs => a = b && isPrefList as_ bs

/-- First occurrence of sep in cs: the part before it and the part after it. -/
def findSub (sep : List Char) : List Char → Option (List Char × List Char)
  | [] => none
  | c :: rest =>
    if isPrefList sep (c :: rest) then some ([], (c :: rest).drop sep.length)
    else (findSub sep rest).map (fun pr => (c :: pr.1, pr.2))

/-- Python s.split(sep)[0] and s.split(sep)[1]: none models the IndexError
raised when the separator does not occur. -/
def splitFirstTwo (sep cs : List Char) : Option (List Char × List Char) :=
  match findSub sep cs with
  | none => none
  | some (p0, post) =>
    match findSub sep post with
    | none => some (p0, post)
    | some (p1, _) => some (p0, p1)

/-- The replace(' ','').replace('+','').replace('-','') of parse_term. -/
def stripSignsSpaces (t : List Char) : List Char :=
  t.filter (fun c => ¬(c = ' ' ∨ c = '+' ∨ c = '-'))

/-- parse_term of computor.py lines 7-24: coefficient and power of one
term token. none models the ValueError / IndexError escape paths. -/
def parse_term (t : List Char) : Option (ℚ × Nat) :=
  let s := stripSignsSpaces t
  if isPrefList ['X', '^'] s then
    (parseNat (s.drop 2)).map (fun p => ((1 : ℚ), p))
  else if isPrefList ['-', 'X', '^'] s then
    (parseNat (s.drop 3)).map (fun p => ((-1 : ℚ), p))
  else
    match splitFirstTwo ['*', 'X', '^'] s with
    | none => none
    | some (p0, p1) =>
      match parseFloat p0, parseNat p1 with
      | some c, some p => some (c, p)
      | _, _ => none

/-! ## get_reduced_form_coeffs -/

/-- The sign computed per token in get_reduced_form_coeffs: -1 when the
token starts with '-', +1 otherwise. -/
def tokSign (t : List Char) : ℚ :=
  if t.head? = some '-' then -1 else 1

/-- One accumulation loop of get_reduced_form_coeffs: sideSgn is +1 for
the left-side loop and -1 for the right-side loop. -/
def accumSide (sideSgn : ℚ) : List (List Char) → CoeffMap → Option CoeffMap
  | [], m => some m
  | t :: ts, m =>
    match parse_term t with
    | none => none
    | some (c, p) =>
      accumSide sideSgn ts (dictSet m p (dictGetD m p 0 + sideSgn * (tokSign t * c)))

/-- The replace(' ', '') applied to each side. -/
def stripSpaces (cs : List Char) : List Char :=
  cs.filter (fun c => c ≠ ' ')

/-- The core of get_reduced_form_coeffs, given the two sides. -/
def reduceSides (l r : List Char) : Option CoeffMap :=
  accumSide 1 (findall (stripSpaces l)) [] >>= accumSide (-1) (findall (stripSpaces r))

/-- Python s.split(c). -/
def splitChar (sep : Char) : List Char → List (List Char)
  | [] => [[]]
  | c :: rest =>
    if c = sep then [] :: splitChar sep rest
    else
      match splitChar sep rest with
      | [] => [[c]]
      | s :: ss => (c :: s) :: ss

/-- List indexing, modelling sides[i] with none for the IndexError. -/
def nthPart : List (List Char) → Nat → Option (List Char)
  | [], _ => none
  | s :: _, 0 => some s
  | _ :: ss, n + 1 => nthPart ss n

/-- get_reduced_form_coeffs of computor.py lines 28-57: sides[0] and
sides[1] of the split on '='; none models the IndexError when a side is
missing. -/
def get_reduced_form_coeffs (eq : List Char) : Option CoeffMap :=
  match nthPart (splitChar '=' eq) 0, nthPart (splitChar '=' eq) 1 with
  | some l, some r => reduceSides l r
  | _, _ => none

/-- The left-side token list read by the reducer from the raw equation. -/
def leftTokens (eq : List Char) : List (List Char) :=
  findall (stripSpaces ((nthPart (splitChar '=' eq) 0).getD []))

/-- The right-side token list read by the reducer from the raw equation. -/
def rightTokens (eq : List Char) : List (List Char) :=
  findall (stripSpaces ((nthPart (splitChar '=' eq) 1).getD []))

/-- The signed contribution of one token to the coefficient of X^p. -/
def contrib (p : Nat) (t : List Char) : ℚ :=
  match parse_term t with
  | some (c, q) => if q = p then tokSign t * c else 0
  | none => 0

/-- Total signed contribution of a token list to the coefficient of X^p. -/
def sumContrib (p : Nat) (ts : List (List Char)) : ℚ :=
  (ts.map (contrib p)).sum

/-! ## Fixed-point number formatting (Python format specs .2f and .6f,
over the exact rational model; ties round to even) -/

/-- Round to the nearest integer, ties to even. -/
def roundHalfEven (q : ℚ) : ℤ :=
  let f := ⌊q⌋
  let r := q - (f : ℚ)
  if r < 1 / 2 then f
  else if 1 / 2 < r then f + 1
  else if f % 2 = 0 then f else f + 1

/-- Little-endian digit characters of n, with fuel. -/
def natDigitsAux : Nat → Nat → List Char
  | 0, _ => []
  | fuel + 1, n =>
    if n = 0 then [] else Char.ofNat (48 + n % 10) :: natDigitsAux fuel (n / 10)

/-- Decimal digit characters of a natural number, most significant first. -/
def natDigits (n : Nat) : List Char :=
  if n = 0 then ['0'] else (natDigitsAux (n + 1) n).reverse

/-- Left-pad with '0' to the given length. -/
def padZero (len : Nat) (cs : List Char) : List Char :=
  List.replicate (len - cs.length) '0' ++ cs

/-- Python format(q, '.df'): fixed-point with d fractional digits. -/
def fmtFixed (d : Nat) (q : ℚ) : List Char :=
  let n := (roundHalfEven (|q| * (10 : ℚ) ^ d)).toNat
  let ip := n / 10 ^ d
  let fp := n % 10 ^ d
  (if q < 0 then ['-'] else []) ++ natDigits ip ++ '.' :: padZero d (natDigits fp)

/-! ## format_reduced_form -/

/-- Stable insertion of a key-value pair into a key-ascending list. -/
def insertByKey (x : Nat × ℚ) : CoeffMap → CoeffMap
  | [] => [x]
  | y :: rest => if x.1 < y.1 then x :: y :: rest else y :: insertByKey x rest

/-- Python sorted(coeffs.items()): items by ascending power (keys of a
dict are distinct, so comparing keys is enough). -/
def sortItems : CoeffMap → CoeffMap
  | [] => []
  | x :: rest => insertByKey x (sortItems rest)

/-- One appended part: the f-string of line 67, sign slot, space,
coefficient to 2 decimals, the literal " * X^", and the power. -/
def renderPart (withPlus : Bool) (p : Nat) (c : ℚ) : List Char :=
  (if withPlus then ['+'] else []) ++ ' ' :: fmtFixed 2 c ++ (" * X^".toList ++ natDigits p)

/-- The loop of format_reduced_form lines 64-67, carrying the parts list:
a term is emitted when its magnitude exceeds 1e-6, and its sign slot is
'+' exactly when the coefficient is nonnegative and a part was already
emitted. -/
def buildParts : CoeffMap → List (List Char) → List (List Char)
  | [], parts => parts
  | (p, c) :: rest, parts =>
    if eps < |c| then
      buildParts rest (parts ++ [renderPart (0 ≤ c ∧ parts ≠ []) p c])
    else buildParts rest parts

/-- Python ' '.join(parts). -/
def joinSpace : List (List Char) → List Char
  | [] => []
  | [p] => p
  | p :: q :: rest => p ++ ' ' :: joinSpace (q :: rest)

/-- format_reduced_form of computor.py lines 61-73. -/
def format_reduced_form (m : CoeffMap) : List Char :=
  let parts := buildParts (sortItems m) []
  if parts = [] then "0 * X^0 = 0".toList
  else joinSpace parts ++ " = 0".toList

/-! ## Degree computation and the solver -/

/-- Insertion into a descending list of powers. -/
def insertDesc (x : Nat) : List Nat → List Nat
  | [] => [x]
  | y :: rest => if y < x then x :: y :: rest else y :: insertDesc x rest

/-- Python sorted(keys, reverse=True). -/
def sortDesc : List Nat → List Nat
  | [] => []
  | x :: rest => insertDesc x (sortDesc rest)

/-- The degree loop of main, lines 137-141: the first power in the
descending key order whose coefficient magnitude exceeds 1e-6; the
initial value 0 when the loop never breaks. -/
def computeDegree (m : CoeffMap) : Nat :=
  ((sortDesc (dictKeys m)).find? (fun p => eps < |dictGetD m p 0|)).getD 0

/-- The solution narrative printed by solve_equation: one constructor per
print shape, carrying the numeric values that are formatted to 6 decimal
digits. twoComplex carries the real and imaginary parts of the two lines
rendered as "re + imi". -/
inductive SolveResult
  | twoReal (s1 s2 : ℝ)
  | oneRepeated (s : ℝ)
  | twoComplex (re1 im1 re2 im2 : ℝ)
  | theSolution (s : ℚ)
  | anyReal
  | noSolution
  | nothing

/-- cmath.sqrt on a real argument: (sqrt d, 0) for d >= 0, else
(0, sqrt (-d)). -/
noncomputable def csqrt (d : ℚ) : ℝ × ℝ :=
  if 0 ≤ d then (Real.sqrt d, 0) else (0, Real.sqrt (-d))

/-- solve_equation of computor.py lines 76-124. The complex arithmetic of
the degree-2 branches: (-b ± sqrt d) / (2a) with componentwise division
of a complex value by the real 2a, and .real / .imag projections. -/
noncomputable def solve_equation (m : CoeffMap) (degree : Nat) : SolveResult :=
  if degree = 2 then
    let a := dictGetD m 2 0
    let b := dictGetD m 1 0
    let c := dictGetD m 0 0
    let d := b ^ 2 - 4 * a * c
    let sq := csqrt d
    let s1re : ℝ := (-(b : ℝ) + sq.1) / (2 * (a : ℝ))
    let s1im : ℝ := sq.2 / (2 * (a : ℝ))
    let s2re : ℝ := (-(b : ℝ) - sq.1) / (2 * (a : ℝ))
    let s2im : ℝ := -sq.2 / (2 * (a : ℝ))
    if eps < d then .twoReal s1re s2re
    else if |d| < eps then .oneRepeated (-(b : ℝ) / (2 * (a : ℝ)))
    else .twoComplex s1re s1im s2re s2im
  else if degree = 1 then
    let a := dictGetD m 1 0
    let b := dictGetD m 0 0
    if |a| < eps then
      if |b| < eps then .anyReal else .noSolution
    else .theSolution (-b / a)
  else if degree = 0 then
    if |dictGetD m 0 0| < eps then .anyReal else .noSolution
  else .nothing

/-- After printing the degree, main either prints the refusal line
(degree > 2) or runs solve_equation. -/
inductive SolvePart
  | cantSolve
  | solved (r : SolveResult)

/-- Lines 144-147 of main: the branch on the computed degree. -/
noncomputable def mainSolvePart (m : CoeffMap) : SolvePart :=
  if 2 < computeDegree m then .cantSolve
  else .solved (solve_equation m (computeDegree m))

/-- The whitespace-stripped rendering of one emitted part, as the
reducer re-reads it in the round trip: sign slot, coefficient and power
of the part, spaces removed. -/
def renderTok (y : Bool × Nat × ℚ) : List Char :=
  stripSpaces (renderPart y.1 y.2.1 y.2.2)

example : fmtFixed 2 (1 : ℚ) = "1.00".toList := by with_unfolding_all decide
example : fmtFixed 6 (-(1 : ℚ)/4) = "-0.250000".toList := by with_unfolding_all decide
example : fmtFixed 2 (-(6 : ℚ)) = "-6.00".toList := by with_unfolding_all decide
example : format_reduced_form [(0, 1), (1, 4)] = " 1.00 * X^0 + 4.00 * X^1 = 0".toList := by
  with_unfolding_all decide
example : format_reduced_form [] = "0 * X^0 = 0".toList := by with_unfolding_all decide
example : format_reduced_form [(0, -1), (1, 3), (2, -6)] =
    " -1.00 * X^0 + 3.00 * X^1  -6.00 * X^2 = 0".toList := by with_unfolding_all decide
example : computeDegree [(0, 1), (1, 4)] = 1 := by with_unfolding_all decide
example : computeDegree [] = 0 := by with_unfolding_all decide

/-! ## Lemmas: dictionary operations -/

theorem dictGet_nil (p : Nat) : dictGet [] p = none := rfl

theorem dictGet_cons (k : Nat) (v : ℚ) (rest : CoeffMap) (p : Nat) :
    dictGet ((k, v) :: rest) p = if k = p then some v else dictGet rest p := rfl

theorem dictGet_dictSet (m : CoeffMap) (p : Nat) (v : ℚ) (q : Nat) :
    dictGet (dictSet m p v) q = if p = q then some v else dictGet m q := by
  induction m with
  | nil =>
    by_cases hpq : p = q <;> simp [dictSet, dictGet, hpq]
  | cons kv rest ih =>
    obtain ⟨k, w⟩ := kv
    by_cases hkp : k = p
    · subst hkp
      by_cases hkq : k = q <;> simp [dictSet, dictGet, hkq]
    · by_cases hkq : k = q
      · subst hkq
        have hpk : ¬ p = k := fun h2 => hkp h2.symm
        simp [dictSet, dictGet, hkp, hpk]
      · simp [dictSet, dictGet, hkp, hkq, ih]

theorem dictGetD_dictSet (m : CoeffMap) (p : Nat) (v : ℚ) (q : Nat) :
    dictGetD (dictSet m p v) q 0 = if p = q then v else dictGetD m q 0 := by
  unfold dictGetD
  rw [dictGet_dictSet]
  by_cases hpq : p = q <;> simp [hpq]

/-! ## Lemmas: the accumulation loops of get_reduced_form_coeffs -/

theorem sumContrib_nil (p : Nat) : sumContrib p [] = 0 := rfl

theorem sumContrib_cons (p : Nat) (t : List Char) (ts : List (List Char)) :
    sumContrib p (t :: ts) = contrib p t + sumContrib p ts := by
  simp [sumContrib]

theorem contrib_of_parse (p : Nat) (t : List Char) (c : ℚ) (q : Nat)
    (h : parse_term t = some (c, q)) :
    contrib p t = if q = p then tokSign t * c else 0 := by
  simp [contrib, h]

theorem accumSide_cons_none (s : ℚ) (t : List Char) (ts : List (List Char)) (m : CoeffMap)
    (h : parse_term t = none) : accumSide s (t :: ts) m = none := by
  simp [accumSide, h]

theorem accumSide_cons_some (s : ℚ) (t : List Char) (ts : List (List Char)) (m : CoeffMap)
    (c : ℚ) (p : Nat) (h : parse_term t = some (c, p)) :
    accumSide s (t :: ts) m =
      accumSide s ts (dictSet m p (dictGetD m p 0 + s * (tokSign t * c))) := by
  simp [accumSide, h]

/-- The value characterization of one accumulation loop: the stored value
at power p grows by the side sign times the total signed contribution of
the processed tokens. -/
theorem accumSide_getD (s : ℚ) (ts : List (List Char)) (m m2 : CoeffMap)
    (h : accumSide s ts m = some m2) (p : Nat) :
    dictGetD m2 p 0 = dictGetD m p 0 + s * sumContrib p ts := by
  induction ts generalizing m with
  | nil =>
    simp [accumSide] at h
    subst h
    simp [sumContrib_nil]
  | cons t ts ih =>
    cases hp : parse_term t with
    | none =>
      rw [accumSide_cons_none s t ts m hp] at h
      exact absurd h (by simp)
    | some cq =>
      obtain ⟨c, q⟩ := cq
      rw [accumSide_cons_some s t ts m c q hp] at h
      have hih := ih _ h
      rw [hih, dictGetD_dictSet, sumContrib_cons, contrib_of_parse p t c q hp]
      by_cases hqp : q = p
      · subst hqp
        rw [if_pos rfl, if_pos rfl]
        ring
      · rw [if_neg hqp, if_neg hqp]
        ring

/-- The key characterization of one accumulation loop: power p is present
afterwards iff it was present before or some processed token parses to
power p. -/
theorem accumSide_mem (s : ℚ) (ts : List (List Char)) (m m2 : CoeffMap)
    (h : accumSide s ts m = some m2) (p : Nat) :
    ((dictGet m2 p).isSome ↔
      (dictGet m p).isSome ∨ ∃ t ∈ ts, ∃ c, parse_term t = some (c, p)) := by
  induction ts generalizing m with
  | nil =>
    simp [accumSide] at h
    subst h
    simp
  | cons t ts ih =>
    cases hp : parse_term t with
    | none =>
      rw [accumSide_cons_none s t ts m hp] at h
      exact absurd h (by simp)
    | some cq =>
      obtain ⟨c, q⟩ := cq
      rw [accumSide_cons_some s t ts m c q hp] at h
      rw [ih _ h, dictGet_dictSet]
      by_cases hqp : q = p
      · subst hqp
        rw [if_pos rfl]
        simp only [Option.isSome_some]
        constructor
        · intro _
          exact Or.inr ⟨t, List.mem_cons_self t ts, c, hp⟩
        · intro _
          exact Or.inl trivial
      · rw [if_neg hqp]
        constructor
        · rintro (hm | ⟨u, hu, cu, hcu⟩)
          · exact Or.inl hm
          · exact Or.inr ⟨u, List.mem_cons_of_mem t hu, cu, hcu⟩
        · rintro (hm | ⟨u, hu, cu, hcu⟩)
          · exact Or.inl hm
          · rcases List.mem_cons.mp hu with rfl | hu2
            · rw [hp] at hcu
              have h2 := Option.some.inj hcu
              have h3 : q = p := congrArg Prod.snd h2
              exact absurd h3 hqp
            · exact Or.inr ⟨u, hu2, cu, hcu⟩

/-- One accumulation loop succeeds exactly when every token parses. -/
theorem accumSide_isSome (s : ℚ) (ts : List (List Char)) (m : CoeffMap) :
    (accumSide s ts m).isSome = ∀ t ∈ ts, (parse_term t).isSome := by
  induction ts generalizing m with
  | nil => simp [accumSide]
  | cons t ts ih =>
    cases hp : parse_term t with
    | none =>
      rw [accumSide_cons_none s t ts m hp]
      simp [hp]
    | some cq =>
      obtain ⟨c, q⟩ := cq
      rw [accumSide_cons_some s t ts m c q hp]
      rw [ih]
      simp [hp]

theorem optionQ_ext (a b : Option ℚ) (h1 : a.isSome = b.isSome) (h2 : a.getD 0 = b.getD 0) :
    a = b := by
  cases a <;> cases b <;> simp_all

theorem sumContrib_perm (p : Nat) (ts1 ts2 : List (List Char)) (h : ts1.Perm ts2) :
    sumContrib p ts1 = sumContrib p ts2 :=
  (h.map (contrib p)).sum_eq

/-- C1: for every equation string containing an '=', the map returned by
the Equation Reducer is the coefficient map of leftSide - rightSide = 0:
the value at power p is the sum of sign * coefficient over left-side
tokens of power p minus the same sum over right-side tokens, sign being
-1 for tokens starting with '-' and +1 otherwise, and powers absent from
the map having contribution zero. -/
theorem C1_reduced_map_is_signed_sum (eq : List Char) (m : CoeffMap)
    (h : get_reduced_form_coeffs eq = some m) (p : Nat) :
    dictGetD m p 0 = sumContrib p (leftTokens eq) - sumContrib p (rightTokens eq) := by
  unfold get_reduced_form_coeffs at h
  split at h
  case h_2 =>
    exact Option.noConfusion h
  case h_1 l r h0 h1 =>
    unfold reduceSides at h
    cases hL : accumSide 1 (findall (stripSpaces l)) [] with
    | none =>
      rw [hL] at h
      exact Option.noConfusion h
    | some m1 =>
      rw [hL] at h
      replace h : accumSide (-1) (findall (stripSpaces r)) m1 = some m := h
      have e1 := accumSide_getD 1 _ _ _ hL p
      have e2 := accumSide_getD (-1) _ _ _ h p
      have eL : leftTokens eq = findall (stripSpaces l) := by
        unfold leftTokens
        rw [h0]
        rfl
      have eR : rightTokens eq = findall (stripSpaces r) := by
        unfold rightTokens
        rw [h1]
        rfl
      rw [eL, eR, e2, e1]
      have e0 : dictGetD [] p 0 = 0 := rfl
      rw [e0]
      ring

theorem C1_reduced_map_is_signed_sum_witness :
    get_reduced_form_coeffs ("5 * X^0 + 4 * X^1 = 4 * X^0".toList) = some [(0, 1), (1, 4)] ∧
    dictGetD [(0, 1), (1, 4)] 1 0 =
      sumContrib 1 (leftTokens ("5 * X^0 + 4 * X^1 = 4 * X^0".toList)) -
      sumContrib 1 (rightTokens ("5 * X^0 + 4 * X^1 = 4 * X^0".toList)) :=
  ⟨by with_unfolding_all decide,
   C1_reduced_map_is_signed_sum _ _ (by with_unfolding_all decide) 1⟩

/-- C9: the reducer's coefficient map is unchanged (as a dict, same keys
and values) when the term tokens within either side are reordered; in
particular the reduction still succeeds. -/
theorem C9_token_order_invariance (l r l2 r2 : List Char) (m : CoeffMap)
    (hl : (findall (stripSpaces l2)).Perm (findall (stripSpaces l)))
    (hr : (findall (stripSpaces r2)).Perm (findall (stripSpaces r)))
    (h : reduceSides l r = some m) :
    ∃ m2, reduceSides l2 r2 = some m2 ∧ dictEquiv m2 m := by
  unfold reduceSides at h ⊢
  cases hL : accumSide 1 (findall (stripSpaces l)) [] with
  | none =>
    rw [hL] at h
    exact Option.noConfusion h
  | some mL =>
    rw [hL] at h
    replace h : accumSide (-1) (findall (stripSpaces r)) mL = some m := h
    have hallL : ∀ t ∈ findall (stripSpaces l), (parse_term t).isSome := by
      have hb : (accumSide 1 (findall (stripSpaces l)) []).isSome := by
        rw [hL]
        rfl
      rw [accumSide_isSome] at hb
      exact hb
    have hallR : ∀ t ∈ findall (stripSpaces r), (parse_term t).isSome := by
      have hb : (accumSide (-1) (findall (stripSpaces r)) mL).isSome := by
        rw [h]
        rfl
      rw [accumSide_isSome] at hb
      exact hb
    have hsL2 : (accumSide 1 (findall (stripSpaces l2)) []).isSome := by
      rw [accumSide_isSome]
      intro t ht
      exact hallL t (hl.mem_iff.mp ht)
    obtain ⟨mL2, hmL2⟩ := Option.isSome_iff_exists.mp hsL2
    have hsR2 : (accumSide (-1) (findall (stripSpaces r2)) mL2).isSome := by
      rw [accumSide_isSome]
      intro t ht
      exact hallR t (hr.mem_iff.mp ht)
    obtain ⟨m2, hm2⟩ := Option.isSome_iff_exists.mp hsR2
    refine ⟨m2, ?_, ?_⟩
    · rw [hmL2]
      exact hm2
    · intro p
      have exL : (∃ t ∈ findall (stripSpaces l2), ∃ c, parse_term t = some (c, p)) ↔
          ∃ t ∈ findall (stripSpaces l), ∃ c, parse_term t = some (c, p) := by
        constructor
        · rintro ⟨t, ht, c, hc⟩
          exact ⟨t, hl.mem_iff.mp ht, c, hc⟩
        · rintro ⟨t, ht, c, hc⟩
          exact ⟨t, hl.mem_iff.mpr ht, c, hc⟩
      have exR : (∃ t ∈ findall (stripSpaces r2), ∃ c, parse_term t = some (c, p)) ↔
          ∃ t ∈ findall (stripSpaces r), ∃ c, parse_term t = some (c, p) := by
        constructor
        · rintro ⟨t, ht, c, hc⟩
          exact ⟨t, hr.mem_iff.mp ht, c, hc⟩
        · rintro ⟨t, ht, c, hc⟩
          exact ⟨t, hr.mem_iff.mpr ht, c, hc⟩
      apply optionQ_ext
      · have i1 := accumSide_mem (-1) _ _ _ hm2 p
        have i2 := accumSide_mem 1 _ _ _ hmL2 p
        have j1 := accumSide_mem (-1) _ _ _ h p
        have j2 := accumSide_mem 1 _ _ _ hL p
        have hiff : (dictGet m2 p).isSome ↔ (dictGet m p).isSome := by
          rw [i1, j1, i2, j2]
          rw [dictGet_nil]
          simp only [Option.isSome_none, Bool.false_eq_true, false_or]
          rw [exL, exR]
        cases hb2 : (dictGet m2 p).isSome <;> cases hb : (dictGet m p).isSome <;> simp_all
      · have v1 := accumSide_getD (-1) _ _ _ hm2 p
        have v2 := accumSide_getD 1 _ _ _ hmL2 p
        have w1 := accumSide_getD (-1) _ _ _ h p
        have w2 := accumSide_getD 1 _ _ _ hL p
        have pL := sumContrib_perm p _ _ hl
        have pR := sumContrib_perm p _ _ hr
        have e0 : dictGetD [] p 0 = 0 := rfl
        unfold dictGetD at v1 v2 w1 w2 e0
        linarith [v1, v2, w1, w2, e0, pL, pR]

theorem C9_token_order_invariance_witness :
    reduceSides ("+4*X^1+5*X^0".toList) ("4*X^0".toList) = some [(1, 4), (0, 1)] ∧
    dictEquiv [(1, 4), (0, 1)] [(0, 1), (1, 4)] := by
  have h := C9_token_order_invariance ("+5*X^0+4*X^1".toList) ("4*X^0".toList)
    ("+4*X^1+5*X^0".toList) ("4*X^0".toList) [(0, 1), (1, 4)]
    (by with_unfolding_all decide) (by with_unfolding_all decide) (by with_unfolding_all decide)
  obtain ⟨m2, hm2, he⟩ := h
  have hconc : reduceSides ("+4*X^1+5*X^0".toList) ("4*X^0".toList) = some [(1, 4), (0, 1)] := by
    with_unfolding_all decide
  rw [hconc] at hm2
  have hm2e : m2 = [(1, 4), (0, 1)] := (Option.some.inj hm2).symm
  subst hm2e
  exact ⟨hconc, he⟩

/-! ## Splitting on the equals sign (claim C7) -/

theorem splitChar_not_mem (sep : Char) (cs : List Char) (h : sep ∉ cs) :
    splitChar sep cs = [cs] := by
  induction cs with
  | nil => rfl
  | cons c rest ih =>
    have hc : ¬ c = sep := fun hcs => h (hcs ▸ List.mem_cons_self c rest)
    have hrest : sep ∉ rest := fun hr => h (List.mem_cons_of_mem c hr)
    rw [splitChar, if_neg hc, ih hrest]

theorem splitChar_append (sep : Char) (l r : List Char) (h : sep ∉ l) :
    splitChar sep (l ++ sep :: r) = l :: splitChar sep r := by
  induction l with
  | nil =>
    rw [List.nil_append, splitChar, if_pos rfl]
  | cons c cs ih =>
    have hc : ¬ c = sep := fun hcs => h (hcs ▸ List.mem_cons_self c cs)
    have hcs2 : sep ∉ cs := fun hr => h (List.mem_cons_of_mem c hr)
    rw [List.cons_append, splitChar, if_neg hc, ih hcs2]

/-- C7 corrected: the reducer fails exactly on inputs with no '=' at all
(sides[1] raises IndexError); with two or more '=' it does not fail, it
splits at the first '=' and takes the text between the first and second
'=' as the right side, ignoring the rest. -/
theorem C7_split_behavior :
    (∀ cs : List Char, '=' ∉ cs → get_reduced_form_coeffs cs = none) ∧
    (∀ l r rest : List Char, '=' ∉ l → '=' ∉ r →
      get_reduced_form_coeffs (l ++ '=' :: (r ++ '=' :: rest)) =
        get_reduced_form_coeffs (l ++ '=' :: r)) := by
  constructor
  · intro cs h
    unfold get_reduced_form_coeffs
    rw [splitChar_not_mem '=' cs h]
    rfl
  · intro l r rest hl hr
    unfold get_reduced_form_coeffs
    rw [splitChar_append '=' l (r ++ '=' :: rest) hl, splitChar_append '=' r rest hr,
      splitChar_append '=' l r hl, splitChar_not_mem '=' r hr]
    rfl

theorem C7_split_behavior_witness :
    get_reduced_form_coeffs ("X^1".toList) = none ∧
    get_reduced_form_coeffs ("X^1=X^0=X^9".toList) =
      get_reduced_form_coeffs ("X^1=X^0".toList) := by
  constructor
  · exact C7_split_behavior.1 ("X^1".toList) (by decide)
  · have h := C7_split_behavior.2 ("X^1".toList) ("X^0".toList) ("X^9".toList)
      (by decide) (by decide)
    exact h

/-- C7 counterexample: an input with two '=' signs does not fail; the
reducer returns a coefficient map built from the first two segments. -/
theorem C7_counterexample :
    get_reduced_form_coeffs ("X^1=X^0=X^9".toList) = some [(1, 1), (0, -1)] ∧
    get_reduced_form_coeffs ("X^1=X^0=X^9".toList) ≠ none := by
  constructor
  · with_unfolding_all decide
  · intro hn
    rw [show get_reduced_form_coeffs ("X^1=X^0=X^9".toList) = some [(1, 1), (0, -1)] by
      with_unfolding_all decide] at hn
    exact Option.noConfusion hn

/-! ## Token shape: a matched token always ends in its single power digit
(claims C6 and C8) -/

theorem matchTail_shape (cs tl rest : List Char) (h : matchTail cs = some (tl, rest)) :
    ∃ d, d.isDigit ∧ (tl = ['^', d] ∨ tl = [d]) := by
  unfold matchTail at h
  split at h
  · rename_i c cs2
    split at h
    · rename_i hd
      obtain ⟨h1, h2⟩ := Prod.mk.injEq .. ▸ Option.some.inj h
      exact ⟨c, hd, Or.inl h1.symm⟩
    · exact Option.noConfusion h
  · rename_i c cs2 hne
    split at h
    · rename_i hd
      obtain ⟨h1, h2⟩ := Prod.mk.injEq .. ▸ Option.some.inj h
      exact ⟨c, hd, Or.inr h1.symm⟩
    · exact Option.noConfusion h
  · exact Option.noConfusion h

/-- Every token the pattern matches ends in a digit: the power of a term
token is always a single digit, so a term with a non-numeric power never
becomes a token. -/
theorem matchTermAt_ends_digit (cs t r : List Char) (h : matchTermAt cs = some (t, r)) :
    ∃ pre d, d.isDigit ∧ t = pre ++ [d] := by
  unfold matchTermAt at h
  simp only [] at h
  split at h
  · rename_i r6 heq
    split at h
    · rename_i tl rest htl
      obtain ⟨h1, h2⟩ := Prod.mk.injEq .. ▸ Option.some.inj h
      obtain ⟨d, hd, hor⟩ := matchTail_shape r6 tl rest htl
      rcases hor with rfl | rfl
      · refine ⟨(takeSign cs).1 ++ (takeDigits (takeSign cs).2).1 ++
          (takeDot (takeDigits (takeSign cs).2).2).1 ++
          (takeDigits (takeDot (takeDigits (takeSign cs).2).2).2).1 ++
          (takeStar (takeDigits (takeDot (takeDigits (takeSign cs).2).2).2).2).1 ++
          ['X', '^'], d, hd, ?_⟩
        rw [← h1]
        simp
      · refine ⟨(takeSign cs).1 ++ (takeDigits (takeSign cs).2).1 ++
          (takeDot (takeDigits (takeSign cs).2).2).1 ++
          (takeDigits (takeDot (takeDigits (takeSign cs).2).2).2).1 ++
          (takeStar (takeDigits (takeDot (takeDigits (takeSign cs).2).2).2).2).1 ++
          ['X'], d, hd, ?_⟩
        rw [← h1]
        simp
    · exact Option.noConfusion h
  · exact Option.noConfusion h

/-- C6 counterexample: the input "X^a = 0" contains a term with a
non-numeric power, yet the reduction does not fail: the term is simply
never matched as a token, and the reducer returns the empty map. -/
theorem C6_counterexample :
    get_reduced_form_coeffs ("X^a = 0".toList) = some [] ∧
    get_reduced_form_coeffs ("X^a = 0".toList) ≠ none := by
  have h : get_reduced_form_coeffs ("X^a = 0".toList) = some [] := by
    with_unfolding_all decide
  exact ⟨h, by rw [h]; exact fun hn => Option.noConfusion hn⟩

/-- C6 corrected: a term whose power is non-numeric is never matched as a
term token (every matched token ends in its single power digit), so it is
silently dropped rather than raising a ParseError; on "X^a = 0" the
reduction succeeds with the empty map and the solver IS invoked,
reporting that any real number is a solution. -/
theorem C6_nonnumeric_power_dropped :
    (∀ cs t r, matchTermAt cs = some (t, r) → ∃ pre d, d.isDigit ∧ t = pre ++ [d]) ∧
    findall ("X^a".toList) = [] ∧
    get_reduced_form_coeffs ("X^a = 0".toList) = some [] ∧
    mainSolvePart [] = SolvePart.solved SolveResult.anyReal := by
  refine ⟨matchTermAt_ends_digit, by with_unfolding_all decide, by with_unfolding_all decide, ?_⟩
  have hdeg : computeDegree [] = 0 := by with_unfolding_all decide
  unfold mainSolvePart
  rw [hdeg]
  rw [if_neg (by norm_num)]
  unfold solve_equation
  rw [if_neg (by norm_num), if_neg (by norm_num), if_pos rfl, if_pos]
  have h0 : dictGetD [] 0 0 = 0 := rfl
  rw [h0]
  simp [eps]

theorem C6_nonnumeric_power_dropped_witness :
    matchTermAt ("X^1".toList) = some ("X^1".toList, []) ∧
    ∃ pre d, d.isDigit ∧ "X^1".toList = pre ++ [d] := by
  constructor
  · with_unfolding_all decide
  · exact C6_nonnumeric_power_dropped.1 ("X^1".toList) ("X^1".toList) []
      (by with_unfolding_all decide)

/-- C10: whenever main computes degree 1 or 2 and hands the map to
solve_equation, the coefficient at that degree has magnitude above 1e-6:
in the degree-1 case the degenerate branch is unreachable and the solver
divides -b by a nonzero a; in the degree-2 case the divisor 2a (both as a
rational and as the real number used by the complex arithmetic) is
nonzero. -/
theorem C10_no_division_by_zero (m : CoeffMap) :
    (computeDegree m = 1 →
      eps < |dictGetD m 1 0| ∧ dictGetD m 1 0 ≠ 0 ∧
        solve_equation m 1 =
          SolveResult.theSolution (-(dictGetD m 0 0) / dictGetD m 1 0)) ∧
    (computeDegree m = 2 →
      eps < |dictGetD m 2 0| ∧ (2 * dictGetD m 2 0) ≠ 0 ∧
        (2 * (dictGetD m 2 0 : ℝ)) ≠ 0) := by
  have key : ∀ d : Nat, computeDegree m = d → d ≠ 0 → eps < |dictGetD m d 0| := by
    intro d h hne
    unfold computeDegree at h
    cases hf : (sortDesc (dictKeys m)).find? (fun p => decide (eps < |dictGetD m p 0|)) with
    | none =>
      rw [hf] at h
      exact absurd h.symm hne
    | some q =>
      rw [hf] at h
      have hq : q = d := h
      have hp := List.find?_some hf
      rw [hq] at hp
      exact of_decide_eq_true hp
  constructor
  · intro h1
    have he := key 1 h1 (by norm_num)
    have hne : dictGetD m 1 0 ≠ 0 := by
      intro h0
      rw [h0] at he
      norm_num [eps] at he
    refine ⟨he, hne, ?_⟩
    unfold solve_equation
    rw [if_neg (by norm_num), if_pos rfl, if_neg]
    exact not_lt.mpr (le_of_lt he)
  · intro h2
    have he := key 2 h2 (by norm_num)
    have hne : dictGetD m 2 0 ≠ 0 := by
      intro h0
      rw [h0] at he
      norm_num [eps] at he
    refine ⟨he, mul_ne_zero two_ne_zero hne, ?_⟩
    exact mul_ne_zero two_ne_zero (Rat.cast_ne_zero.mpr hne)

theorem C10_no_division_by_zero_witness :
    computeDegree [(0, 1), (1, 4)] = 1 ∧
    (eps < |dictGetD [(0, 1), (1, 4)] 1 0| ∧ dictGetD [(0, 1), (1, 4)] 1 0 ≠ 0 ∧
      solve_equation [(0, 1), (1, 4)] 1 =
        SolveResult.theSolution
          (-(dictGetD [(0, 1), (1, 4)] 0 0) / dictGetD [(0, 1), (1, 4)] 1 0)) :=
  ⟨by with_unfolding_all decide,
   (C10_no_division_by_zero [(0, 1), (1, 4)]).1 (by with_unfolding_all decide)⟩

/-! ## Sortedness of the two sorts used by the program -/

theorem insertDesc_mem (x : Nat) (l : List Nat) (z : Nat) :
    z ∈ insertDesc x l ↔ z = x ∨ z ∈ l := by
  induction l with
  | nil => simp [insertDesc]
  | cons y rest ih =>
    unfold insertDesc
    by_cases hyx : y < x
    · simp [hyx]
    · simp only [if_neg hyx, List.mem_cons, ih]
      tauto

theorem sortDesc_mem (l : List Nat) (z : Nat) : z ∈ sortDesc l ↔ z ∈ l := by
  induction l with
  | nil => simp [sortDesc]
  | cons y rest ih =>
    unfold sortDesc
    rw [insertDesc_mem, ih]
    simp

theorem insertDesc_pairwise (x : Nat) (l : List Nat)
    (h : l.Pairwise (fun a b => b ≤ a)) :
    (insertDesc x l).Pairwise (fun a b => b ≤ a) := by
  induction l with
  | nil => simp [insertDesc]
  | cons y rest ih =>
    unfold insertDesc
    rcases List.pairwise_cons.mp h with ⟨hy, hrest⟩
    by_cases hyx : y < x
    · rw [if_pos hyx]
      refine List.pairwise_cons.mpr ⟨?_, h⟩
      intro z hz
      rcases List.mem_cons.mp hz with rfl | hz2
      · exact le_of_lt hyx
      · exact le_trans (hy z hz2) (le_of_lt hyx)
    · rw [if_neg hyx]
      refine List.pairwise_cons.mpr ⟨?_, ih hrest⟩
      intro z hz
      rcases (insertDesc_mem x rest z).mp hz with rfl | hz2
      · exact le_of_not_lt hyx
      · exact hy z hz2

theorem sortDesc_pairwise (l : List Nat) :
    (sortDesc l).Pairwise (fun a b => b ≤ a) := by
  induction l with
  | nil => simp [sortDesc]
  | cons y rest ih => exact insertDesc_pairwise y (sortDesc rest) ih

theorem insertByKey_mem (x : Nat × ℚ) (l : CoeffMap) (z : Nat × ℚ) :
    z ∈ insertByKey x l ↔ z = x ∨ z ∈ l := by
  induction l with
  | nil => simp [insertByKey]
  | cons y rest ih =>
    unfold insertByKey
    by_cases hxy : x.1 < y.1
    · simp [hxy]
    · simp only [if_neg hxy, List.mem_cons, ih]
      tauto

theorem sortItems_mem (l : CoeffMap) (z : Nat × ℚ) : z ∈ sortItems l ↔ z ∈ l := by
  induction l with
  | nil => simp [sortItems]
  | cons y rest ih =>
    unfold sortItems
    rw [insertByKey_mem, ih]
    simp

theorem insertByKey_pairwise (x : Nat × ℚ) (l : CoeffMap)
    (h : l.Pairwise (fun a b => a.1 ≤ b.1)) :
    (insertByKey x l).Pairwise (fun a b => a.1 ≤ b.1) := by
  induction l with
  | nil => simp [insertByKey]
  | cons y rest ih =>
    unfold insertByKey
    rcases List.pairwise_cons.mp h with ⟨hy, hrest⟩
    by_cases hxy : x.1 < y.1
    · rw [if_pos hxy]
      refine List.pairwise_cons.mpr ⟨?_, h⟩
      intro z hz
      rcases List.mem_cons.mp hz with rfl | hz2
      · exact le_of_lt hxy
      · exact le_trans (le_of_lt hxy) (hy z hz2)
    · rw [if_neg hxy]
      refine List.pairwise_cons.mpr ⟨?_, ih hrest⟩
      intro z hz
      rcases (insertByKey_mem x rest z).mp hz with rfl | hz2
      · exact le_of_not_lt hxy
      · exact hy z hz2

theorem sortItems_pairwise (l : CoeffMap) :
    (sortItems l).Pairwise (fun a b => a.1 ≤ b.1) := by
  induction l with
  | nil => simp [sortItems]
  | cons y rest ih => exact insertByKey_pairwise y (sortItems rest) ih

/-! ## The degree loop (claim C3) -/

theorem find?_sorted_desc_max (l : List Nat) (pred : Nat → Bool)
    (hs : l.Pairwise (fun a b => b ≤ a)) (q : Nat) (h : l.find? pred = some q) :
    pred q = true ∧ ∀ x ∈ l, pred x = true → x ≤ q := by
  induction l with
  | nil => exact Option.noConfusion h
  | cons y rest ih =>
    rcases List.pairwise_cons.mp hs with ⟨hy, hrest⟩
    by_cases hp : pred y = true
    · rw [List.find?_cons_of_pos _ hp] at h
      have hq : y = q := Option.some.inj h
      subst hq
      refine ⟨hp, ?_⟩
      intro x hx _
      rcases List.mem_cons.mp hx with rfl | hx2
      · exact le_refl x
      · exact hy x hx2
    · rw [List.find?_cons_of_neg _ hp] at h
      obtain ⟨h1, h2⟩ := ih hrest h
      refine ⟨h1, ?_⟩
      intro x hx hpx
      rcases List.mem_cons.mp hx with rfl | hx2
      · exact absurd hpx hp
      · exact h2 x hx2 hpx

/-- C3: the degree reported by main is the highest power whose
coefficient magnitude strictly exceeds 1e-6 (and 0 when no such power
exists), and when that degree exceeds 2 main emits the refusal line and
never runs the solver, so no numeric solution is produced. -/
theorem C3_degree_and_refusal (m : CoeffMap) :
    ((∃ p ∈ dictKeys m, eps < |dictGetD m p 0|) →
      computeDegree m ∈ dictKeys m ∧ eps < |dictGetD m (computeDegree m) 0| ∧
        ∀ q ∈ dictKeys m, eps < |dictGetD m q 0| → q ≤ computeDegree m) ∧
    ((¬ ∃ p ∈ dictKeys m, eps < |dictGetD m p 0|) → computeDegree m = 0) ∧
    (2 < computeDegree m → mainSolvePart m = SolvePart.cantSolve) := by
  refine ⟨?_, ?_, ?_⟩
  · rintro ⟨p, hp, hpred⟩
    cases hf : (sortDesc (dictKeys m)).find? (fun x => decide (eps < |dictGetD m x 0|)) with
    | none =>
      have hall := List.find?_eq_none.mp hf p ((sortDesc_mem (dictKeys m) p).mpr hp)
      rw [decide_eq_true_eq] at hall
      exact absurd hpred hall
    | some q =>
      have hcd : computeDegree m = q := by
        unfold computeDegree
        rw [hf]
        rfl
      obtain ⟨h1, h2⟩ := find?_sorted_desc_max (sortDesc (dictKeys m)) _
        (sortDesc_pairwise (dictKeys m)) q hf
      have hqmem : q ∈ dictKeys m :=
        (sortDesc_mem (dictKeys m) q).mp (List.mem_of_find?_eq_some hf)
      rw [hcd]
      refine ⟨hqmem, of_decide_eq_true h1, ?_⟩
      intro x hx hpx
      exact h2 x ((sortDesc_mem (dictKeys m) x).mpr hx) (decide_eq_true hpx)
  · intro hno
    unfold computeDegree
    rw [List.find?_eq_none.mpr]
    · rfl
    · intro x hx
      rw [decide_eq_true_eq]
      intro hpx
      exact hno ⟨x, (sortDesc_mem (dictKeys m) x).mp hx, hpx⟩
  · intro hgt
    unfold mainSolvePart
    rw [if_pos hgt]

theorem C3_degree_and_refusal_witness :
    computeDegree [(0, 1), (1, 4)] ∈ dictKeys [(0, 1), (1, 4)] ∧
    eps < |dictGetD [(0, 1), (1, 4)] (computeDegree [(0, 1), (1, 4)]) 0| ∧
    ∀ q ∈ dictKeys [(0, 1), (1, 4)], eps < |dictGetD [(0, 1), (1, 4)] q 0| →
      q ≤ computeDegree [(0, 1), (1, 4)] :=
  (C3_degree_and_refusal [(0, 1), (1, 4)]).1
    ⟨1, by with_unfolding_all decide, by with_unfolding_all decide⟩

/-! ## The formatter (claim C4) -/

theorem buildParts_ne_nil (items : CoeffMap) (parts : List (List Char)) (h : parts ≠ []) :
    buildParts items parts =
      parts ++ (items.filter (fun kv => eps < |kv.2|)).map
        (fun kv => renderPart (decide (0 ≤ kv.2)) kv.1 kv.2) := by
  induction items generalizing parts with
  | nil => simp [buildParts]
  | cons kv rest ih =>
    obtain ⟨p, c⟩ := kv
    by_cases hc : eps < |c|
    · rw [show buildParts ((p, c) :: rest) parts =
          (if eps < |c| then
            buildParts rest (parts ++ [renderPart (decide (0 ≤ c ∧ parts ≠ [])) p c])
          else buildParts rest parts) from rfl]
      rw [if_pos hc]
      have hd : decide (0 ≤ c ∧ parts ≠ []) = decide (0 ≤ c) := by simp [h]
      rw [hd, ih _ (by simp), List.filter_cons_of_pos (by simpa using hc)]
      simp

    · rw [show buildParts ((p, c) :: rest) parts =
          (if eps < |c| then
            buildParts rest (parts ++ [renderPart (decide (0 ≤ c ∧ parts ≠ [])) p c])
          else buildParts rest parts) from rfl]
      rw [if_neg hc, ih _ h, List.filter_cons_of_neg (by simpa using hc)]

theorem buildParts_nil_start (items : CoeffMap) :
    buildParts items [] =
      match items.filter (fun kv => eps < |kv.2|) with
      | [] => []
      | kv :: rest =>
        renderPart false kv.1 kv.2 ::
          rest.map (fun x => renderPart (decide (0 ≤ x.2)) x.1 x.2) := by
  induction items with
  | nil => rfl
  | cons kv rest ih =>
    obtain ⟨p, c⟩ := kv
    by_cases hc : eps < |c|
    · rw [show buildParts ((p, c) :: rest) [] =
          (if eps < |c| then
            buildParts rest ([] ++ [renderPart (decide (0 ≤ c ∧ ([] : List (List Char)) ≠ [])) p c])
          else buildParts rest []) from rfl]
      rw [if_pos hc]
      have hd : decide ((0:ℚ) ≤ c ∧ ([] : List (List Char)) ≠ []) = false := by simp
      rw [hd, List.nil_append, buildParts_ne_nil rest _ (by simp),
        List.filter_cons_of_pos (by simpa using hc)]
      rfl
    · rw [show buildParts ((p, c) :: rest) [] =
          (if eps < |c| then
            buildParts rest ([] ++ [renderPart (decide (0 ≤ c ∧ ([] : List (List Char)) ≠ [])) p c])
          else buildParts rest []) from rfl]
      rw [if_neg hc, ih, List.filter_cons_of_neg (by simpa using hc)]

/-- The normal form described by claim C4 as amended: items sorted by
ascending power, terms with magnitude at most 1e-6 omitted, the fixed
literal when everything is omitted, the first emitted term with an empty
sign slot and every later emitted term with '+' exactly when its
coefficient is nonnegative. This definition follows the claim's words;
the theorem below compares it with the formatter translated from the
code. -/
def specFormat (m : CoeffMap) : List Char :=
  match (sortItems m).filter (fun kv => eps < |kv.2|) with
  | [] => "0 * X^0 = 0".toList
  | kv :: rest =>
    joinSpace (renderPart false kv.1 kv.2 ::
      rest.map (fun x => renderPart (decide (0 ≤ x.2)) x.1 x.2)) ++ " = 0".toList

/-- C4 corrected: the formatter emits terms by ascending power with 2
decimal digits, omits magnitudes at most 1e-6, outputs the fixed literal
when all terms are omitted, and gives the first emitted term no '+'; but
each part carries a space between its sign slot and its coefficient, so
the output begins with a space and a negative non-first term is preceded
by two spaces. -/
theorem C4_formatter_characterization (m : CoeffMap) :
    format_reduced_form m = specFormat m ∧
    (((sortItems m).filter (fun kv => eps < |kv.2|)).map Prod.fst).Pairwise (· ≤ ·) := by
  constructor
  · unfold format_reduced_form specFormat
    rw [buildParts_nil_start (sortItems m)]
    cases hfil : (sortItems m).filter (fun kv => eps < |kv.2|) with
    | nil => rfl
    | cons kv rest => simp
  · have hp := sortItems_pairwise m
    have hf := hp.filter (fun kv => decide (eps < |kv.2|))
    exact hf.map Prod.fst (fun a b hab => hab)

/-- C4 counterexample: on the map with single entry 1.0 at power 0, the
rendered string carries a leading space, so it is not the claimed
'1.00 * X^0 = 0'. -/
theorem C4_counterexample :
    format_reduced_form [(0, 1)] = " 1.00 * X^0 = 0".toList ∧
    " 1.00 * X^0 = 0".toList ≠ "1.00 * X^0 = 0".toList := by
  constructor
  · with_unfolding_all decide
  · decide

/-! ## The quadratic solver (claim C2) -/

/-- C2 corrected: for a map of effective degree 2 with a = coeff[2],
b = coeff[1], c = coeff[0] and discriminant d = b^2 - 4ac: when
d > 1e-6 the solver reports the two real roots (-b +- sqrt d)/(2a); when
|d| < 1e-6 (strictly) it reports the single root -b/(2a); when
d <= -1e-6 it reports the complex conjugate pair (-b +- i sqrt(-d))/(2a)
in the "re + imi" rendering; and at the boundary d = 1e-6 exactly it
takes the complex-format branch, reporting (-b +- 1/1000)/(2a) with zero
imaginary parts, not the single repeated root. -/
theorem C2_quadratic_solver (m : CoeffMap) (hdeg : computeDegree m = 2) :
    (eps < (dictGetD m 1 0) ^ 2 - 4 * dictGetD m 2 0 * dictGetD m 0 0 →
      solve_equation m 2 = SolveResult.twoReal
        ((-(dictGetD m 1 0 : ℝ) +
          Real.sqrt (((dictGetD m 1 0) ^ 2 - 4 * dictGetD m 2 0 * dictGetD m 0 0 : ℚ) : ℝ)) /
          (2 * (dictGetD m 2 0 : ℝ)))
        ((-(dictGetD m 1 0 : ℝ) -
          Real.sqrt (((dictGetD m 1 0) ^ 2 - 4 * dictGetD m 2 0 * dictGetD m 0 0 : ℚ) : ℝ)) /
          (2 * (dictGetD m 2 0 : ℝ)))) ∧
    (|(dictGetD m 1 0) ^ 2 - 4 * dictGetD m 2 0 * dictGetD m 0 0| < eps →
      solve_equation m 2 = SolveResult.oneRepeated
        (-(dictGetD m 1 0 : ℝ) / (2 * (dictGetD m 2 0 : ℝ)))) ∧
    ((dictGetD m 1 0) ^ 2 - 4 * dictGetD m 2 0 * dictGetD m 0 0 ≤ -eps →
      solve_equation m 2 = SolveResult.twoComplex
        (-(dictGetD m 1 0 : ℝ) / (2 * (dictGetD m 2 0 : ℝ)))
        (Real.sqrt ((-((dictGetD m 1 0) ^ 2 - 4 * dictGetD m 2 0 * dictGetD m 0 0) : ℚ) : ℝ) /
          (2 * (dictGetD m 2 0 : ℝ)))
        (-(dictGetD m 1 0 : ℝ) / (2 * (dictGetD m 2 0 : ℝ)))
        (-Real.sqrt ((-((dictGetD m 1 0) ^ 2 - 4 * dictGetD m 2 0 * dictGetD m 0 0) : ℚ) : ℝ) /
          (2 * (dictGetD m 2 0 : ℝ)))) ∧
    ((dictGetD m 1 0) ^ 2 - 4 * dictGetD m 2 0 * dictGetD m 0 0 = eps →
      solve_equation m 2 = SolveResult.twoComplex
        ((-(dictGetD m 1 0 : ℝ) + 1 / 1000) / (2 * (dictGetD m 2 0 : ℝ))) 0
        ((-(dictGetD m 1 0 : ℝ) - 1 / 1000) / (2 * (dictGetD m 2 0 : ℝ))) 0) := by
  refine ⟨?_, ?_, ?_, ?_⟩
  · intro h
    have hd0 : (0 : ℚ) ≤ (dictGetD m 1 0) ^ 2 - 4 * dictGetD m 2 0 * dictGetD m 0 0 :=
      le_of_lt (lt_trans (by norm_num [eps]) h)
    unfold solve_equation
    rw [if_pos rfl, if_pos h]
    unfold csqrt
    rw [if_pos hd0]
  · intro h
    have hnd : ¬ eps < (dictGetD m 1 0) ^ 2 - 4 * dictGetD m 2 0 * dictGetD m 0 0 :=
      not_lt.mpr (le_of_lt (lt_of_le_of_lt (le_abs_self _) h))
    unfold solve_equation
    rw [if_pos rfl, if_neg hnd, if_pos h]
  · intro h
    have hneg : (dictGetD m 1 0) ^ 2 - 4 * dictGetD m 2 0 * dictGetD m 0 0 < 0 :=
      lt_of_le_of_lt h (by norm_num [eps])
    have hnd : ¬ eps < (dictGetD m 1 0) ^ 2 - 4 * dictGetD m 2 0 * dictGetD m 0 0 :=
      not_lt.mpr (le_of_lt (lt_trans hneg (by norm_num [eps])))
    have hnabs : ¬ |(dictGetD m 1 0) ^ 2 - 4 * dictGetD m 2 0 * dictGetD m 0 0| < eps := by
      rw [abs_of_nonpos (le_of_lt hneg)]
      exact not_lt.mpr (le_neg_of_le_neg h)
    unfold solve_equation
    rw [if_pos rfl, if_neg hnd, if_neg hnabs]
    unfold csqrt
    rw [if_neg (not_le.mpr hneg)]
    norm_num
  · intro h
    have hs : Real.sqrt ((eps : ℚ) : ℝ) = 1 / 1000 := by
      rw [show ((eps : ℚ) : ℝ) = (1 / 1000 : ℝ) ^ 2 by norm_num [eps]]
      exact Real.sqrt_sq (by norm_num)
    have hn1 : ¬ eps < (dictGetD m 1 0) ^ 2 - 4 * dictGetD m 2 0 * dictGetD m 0 0 := by
      rw [h]
      norm_num
    have hn2 : ¬ |(dictGetD m 1 0) ^ 2 - 4 * dictGetD m 2 0 * dictGetD m 0 0| < eps := by
      rw [h]
      exact not_lt.mpr (le_abs_self eps)
    have h0 : (0 : ℚ) ≤ (dictGetD m 1 0) ^ 2 - 4 * dictGetD m 2 0 * dictGetD m 0 0 := by
      rw [h]
      norm_num [eps]
    have hsD : Real.sqrt
        (((dictGetD m 1 0) ^ 2 - 4 * dictGetD m 2 0 * dictGetD m 0 0 : ℚ) : ℝ) = 1 / 1000 := by
      rw [h]
      exact hs
    unfold solve_equation
    rw [if_pos rfl, if_neg hn1, if_neg hn2]
    unfold csqrt
    rw [if_pos h0, hsD]
    norm_num

theorem C2_quadratic_solver_witness :
    computeDegree [(2, 1), (0, -1)] = 2 ∧
    solve_equation [(2, 1), (0, -1)] 2 = SolveResult.twoReal 1 (-1) := by
  have hdeg : computeDegree [(2, 1), (0, -1)] = 2 := by with_unfolding_all decide
  have hb : dictGetD [(2, 1), (0, -1)] 1 0 = 0 := by with_unfolding_all decide
  have ha : dictGetD [(2, 1), (0, -1)] 2 0 = 1 := by with_unfolding_all decide
  have hc : dictGetD [(2, 1), (0, -1)] 0 0 = -1 := by with_unfolding_all decide
  have hdisc : eps < (dictGetD [(2, 1), (0, -1)] 1 0) ^ 2 -
      4 * dictGetD [(2, 1), (0, -1)] 2 0 * dictGetD [(2, 1), (0, -1)] 0 0 := by
    rw [hb, ha, hc]
    norm_num [eps]
  have h := (C2_quadratic_solver [(2, 1), (0, -1)] hdeg).1 hdisc
  refine ⟨hdeg, ?_⟩
  rw [h]
  rw [hb, ha, hc]
  have h4 : ((0 : ℚ) ^ 2 - 4 * 1 * (-1) : ℚ) = 4 := by norm_num
  rw [h4]
  have hs : Real.sqrt (((4 : ℚ)) : ℝ) = 2 := by
    rw [show (((4 : ℚ)) : ℝ) = (2 : ℝ) ^ 2 by norm_num]
    exact Real.sqrt_sq (by norm_num)
  rw [hs]
  norm_num

set_option maxRecDepth 8000 in
/-- C2 counterexample: at a = 1, b = 1/1000, c = 0 the discriminant is
exactly 1e-6, so |d| <= 1e-6 holds, yet the solver does not report the
single root -b/(2a): it lands in the complex-format branch and reports
two distinct values with zero imaginary parts. -/
theorem C2_boundary_counterexample :
    computeDegree [(2, 1), (1, 1 / 1000)] = 2 ∧
    |(dictGetD [(2, 1), (1, 1 / 1000)] 1 0) ^ 2 -
      4 * dictGetD [(2, 1), (1, 1 / 1000)] 2 0 * dictGetD [(2, 1), (1, 1 / 1000)] 0 0| ≤ eps ∧
    solve_equation [(2, 1), (1, 1 / 1000)] 2 =
      SolveResult.twoComplex 0 0 (-(1 / 1000)) 0 ∧
    SolveResult.twoComplex (0 : ℝ) 0 (-(1 / 1000)) 0 ≠
      SolveResult.oneRepeated
        (-(dictGetD [(2, 1), (1, 1 / 1000)] 1 0 : ℝ) /
          (2 * (dictGetD [(2, 1), (1, 1 / 1000)] 2 0 : ℝ))) := by
  have hb : dictGetD [(2, 1), (1, 1 / 1000)] 1 0 = 1 / 1000 := by with_unfolding_all decide
  have ha : dictGetD [(2, 1), (1, 1 / 1000)] 2 0 = 1 := by with_unfolding_all decide
  have hc : dictGetD [(2, 1), (1, 1 / 1000)] 0 0 = 0 := by with_unfolding_all decide
  have hd : (dictGetD [(2, 1), (1, 1 / 1000)] 1 0) ^ 2 -
      4 * dictGetD [(2, 1), (1, 1 / 1000)] 2 0 * dictGetD [(2, 1), (1, 1 / 1000)] 0 0 = eps := by
    rw [hb, ha, hc]
    norm_num [eps]
  refine ⟨by with_unfolding_all decide, ?_, ?_, ?_⟩
  · rw [hd]
    rw [abs_of_nonneg (by norm_num [eps])]
  · have hs : Real.sqrt ((eps : ℚ) : ℝ) = 1 / 1000 := by
      rw [show ((eps : ℚ) : ℝ) = (1 / 1000 : ℝ) ^ 2 by norm_num [eps]]
      exact Real.sqrt_sq (by norm_num)
    have hn1 : ¬ eps < (dictGetD [(2, 1), (1, 1 / 1000)] 1 0) ^ 2 -
        4 * dictGetD [(2, 1), (1, 1 / 1000)] 2 0 * dictGetD [(2, 1), (1, 1 / 1000)] 0 0 := by
      rw [hd]
      norm_num
    have hn2 : ¬ |(dictGetD [(2, 1), (1, 1 / 1000)] 1 0) ^ 2 -
        4 * dictGetD [(2, 1), (1, 1 / 1000)] 2 0 * dictGetD [(2, 1), (1, 1 / 1000)] 0 0| < eps := by
      rw [hd]
      exact not_lt.mpr (le_abs_self eps)
    have h0 : (0 : ℚ) ≤ (dictGetD [(2, 1), (1, 1 / 1000)] 1 0) ^ 2 -
        4 * dictGetD [(2, 1), (1, 1 / 1000)] 2 0 * dictGetD [(2, 1), (1, 1 / 1000)] 0 0 := by
      rw [hd]
      norm_num [eps]
    have hsD : Real.sqrt (((dictGetD [(2, 1), (1, 1 / 1000)] 1 0) ^ 2 -
        4 * dictGetD [(2, 1), (1, 1 / 1000)] 2 0 * dictGetD [(2, 1), (1, 1 / 1000)] 0 0 : ℚ) : ℝ) =
        1 / 1000 := by
      rw [hd]
      exact hs
    unfold solve_equation
    rw [if_pos rfl, if_neg hn1, if_neg hn2]
    unfold csqrt
    rw [if_pos h0, hsD, hb, ha]
    norm_num
  · intro hcontr
    exact SolveResult.noConfusion hcontr

/-! ## The worked example (claim C5) -/

/-- C5 counterexample: on "5 * X^0 + 4 * X^1 = 4 * X^0" the formatter's
output carries a leading space, so the reported reduced form is not the
claimed string '1.00 * X^0 + 4.00 * X^1 = 0'. -/
theorem C5_counterexample :
    get_reduced_form_coeffs ("5 * X^0 + 4 * X^1 = 4 * X^0".toList) = some [(0, 1), (1, 4)] ∧
    format_reduced_form [(0, 1), (1, 4)] = " 1.00 * X^0 + 4.00 * X^1 = 0".toList ∧
    " 1.00 * X^0 + 4.00 * X^1 = 0".toList ≠ "1.00 * X^0 + 4.00 * X^1 = 0".toList := by
  refine ⟨by with_unfolding_all decide, by with_unfolding_all decide, by decide⟩

/-- C5 corrected: on "5 * X^0 + 4 * X^1 = 4 * X^0" the program reduces to
the map 1 at power 0 and 4 at power 1, renders the reduced form
' 1.00 * X^0 + 4.00 * X^1 = 0' (with the formatter's leading space),
reports degree 1, and solves to -1/4 which prints as '-0.250000'. -/
theorem C5_example_run :
    get_reduced_form_coeffs ("5 * X^0 + 4 * X^1 = 4 * X^0".toList) = some [(0, 1), (1, 4)] ∧
    format_reduced_form [(0, 1), (1, 4)] = " 1.00 * X^0 + 4.00 * X^1 = 0".toList ∧
    computeDegree [(0, 1), (1, 4)] = 1 ∧
    mainSolvePart [(0, 1), (1, 4)] = SolvePart.solved (SolveResult.theSolution (-(1 / 4))) ∧
    fmtFixed 6 (-(1 / 4)) = "-0.250000".toList := by
  have hdeg : computeDegree [(0, 1), (1, 4)] = 1 := by with_unfolding_all decide
  refine ⟨by with_unfolding_all decide, by with_unfolding_all decide, hdeg, ?_,
    by with_unfolding_all decide⟩
  have ha : dictGetD [(0, 1), (1, 4)] 1 0 = 4 := by with_unfolding_all decide
  have hb : dictGetD [(0, 1), (1, 4)] 0 0 = 1 := by with_unfolding_all decide
  unfold mainSolvePart
  rw [hdeg, if_neg (by norm_num)]
  unfold solve_equation
  rw [if_neg (by norm_num), if_pos rfl, ha, hb]
  rw [if_neg (by norm_num [eps])]
  norm_num

/-! ## Scanner decomposition (towards claim C8) -/

theorem takeSign_append (cs : List Char) : (takeSign cs).1 ++ (takeSign cs).2 = cs := by
  cases cs with
  | nil => rfl
  | cons c rest =>
    simp only [takeSign]
    by_cases hc : c = '+' ∨ c = '-'
    · simp [hc]
    · simp [hc]

theorem takeDigits_append (cs : List Char) : (takeDigits cs).1 ++ (takeDigits cs).2 = cs :=
  List.takeWhile_append_dropWhile Char.isDigit cs

theorem takeDot_append (cs : List Char) : (takeDot cs).1 ++ (takeDot cs).2 = cs := by
  cases cs with
  | nil => rfl
  | cons c rest =>
    by_cases hc : c = '.'
    · subst hc
      rfl
    · unfold takeDot
      split
      · rename_i heq
        rw [List.cons.injEq] at heq
        exact absurd heq.1 hc
      · rfl

theorem takeStar_append (cs : List Char) : (takeStar cs).1 ++ (takeStar cs).2 = cs := by
  cases cs with
  | nil => rfl
  | cons c rest =>
    by_cases hc : c = '*'
    · subst hc
      rfl
    · unfold takeStar
      split
      · rename_i heq
        rw [List.cons.injEq] at heq
        exact absurd heq.1 hc
      · rfl

theorem matchTail_append (cs tl rest : List Char) (h : matchTail cs = some (tl, rest)) :
    tl ++ rest = cs := by
  unfold matchTail at h
  split at h
  · split at h
    · obtain ⟨h1, h2⟩ := Prod.mk.injEq .. ▸ Option.some.inj h
      rw [← h1, ← h2]
      rfl
    · exact Option.noConfusion h
  · split at h
    · obtain ⟨h1, h2⟩ := Prod.mk.injEq .. ▸ Option.some.inj h
      rw [← h1, ← h2]
      rfl
    · exact Option.noConfusion h
  · exact Option.noConfusion h

theorem matchTermAt_append (cs t r : List Char) (h : matchTermAt cs = some (t, r)) :
    t ++ r = cs ∧ t ≠ [] := by
  unfold matchTermAt at h
  simp only [] at h
  split at h
  · rename_i r6 heq
    split at h
    · rename_i tl rest htl
      obtain ⟨h1, h2⟩ := Prod.mk.injEq .. ▸ Option.some.inj h
      have e1 := takeSign_append cs
      have e2 := takeDigits_append (takeSign cs).2
      have e3 := takeDot_append (takeDigits (takeSign cs).2).2
      have e4 := takeDigits_append (takeDot (takeDigits (takeSign cs).2).2).2
      have e5 := takeStar_append (takeDigits (takeDot (takeDigits (takeSign cs).2).2).2).2
      have etail := matchTail_append r6 tl rest htl
      constructor
      · rw [← h1, ← h2]
        calc ((takeSign cs).1 ++ (takeDigits (takeSign cs).2).1 ++
                (takeDot (takeDigits (takeSign cs).2).2).1 ++
                (takeDigits (takeDot (takeDigits (takeSign cs).2).2).2).1 ++
                (takeStar (takeDigits (takeDot (takeDigits (takeSign cs).2).2).2).2).1 ++
                'X' :: tl) ++ rest
            = (takeSign cs).1 ++ ((takeDigits (takeSign cs).2).1 ++
                ((takeDot (takeDigits (takeSign cs).2).2).1 ++
                ((takeDigits (takeDot (takeDigits (takeSign cs).2).2).2).1 ++
                ((takeStar (takeDigits (takeDot (takeDigits (takeSign cs).2).2).2).2).1 ++
                'X' :: (tl ++ rest))))) := by
              simp [List.append_assoc]
          _ = cs := by
              rw [etail, ← heq, e5, e4, e3, e2, e1]
      · rw [← h1]
        intro hnil
        have := List.append_eq_nil.mp hnil
        exact List.noConfusion this.2
    · exact Option.noConfusion h
  · exact Option.noConfusion h

theorem findallAux_congr (n : Nat) : ∀ (cs : List Char) (f1 f2 : Nat),
    cs.length ≤ n → cs.length ≤ f1 → cs.length ≤ f2 →
    findallAux f1 cs = findallAux f2 cs := by
  induction n with
  | zero =>
    intro cs f1 f2 h0 _ _
    have hcs : cs = [] := List.length_eq_zero.mp (Nat.le_zero.mp h0)
    subst hcs
    cases f1 <;> cases f2 <;> rfl
  | succ n ih =>
    intro cs f1 f2 h0 h1 h2
    cases cs with
    | nil => cases f1 <;> cases f2 <;> rfl
    | cons c rest =>
      rw [List.length_cons] at h0 h1 h2
      cases f1 with
      | zero => exact absurd h1 (by omega)
      | succ g1 =>
        cases f2 with
        | zero => exact absurd h2 (by omega)
        | succ g2 =>
          cases hm : matchTermAt (c :: rest) with
          | none =>
            simp only [findallAux, hm]
            exact ih rest g1 g2 (by omega) (by omega) (by omega)
          | some pr =>
            obtain ⟨tok, r⟩ := pr
            simp only [findallAux, hm]
            obtain ⟨happ, hne⟩ := matchTermAt_append (c :: rest) tok r hm
            have htok : 1 ≤ tok.length := by
              cases tok with
              | nil => exact absurd rfl hne
              | cons x xs => simp
            have hlen : r.length ≤ rest.length := by
              have hl : tok.length + r.length = rest.length + 1 := by
                rw [← List.length_append, happ]
                simp
              omega
            rw [ih r g1 g2 (by omega) (by omega) (by omega)]

theorem findall_step (cs t r : List Char) (h : matchTermAt cs = some (t, r)) :
    findall cs = t :: findall r := by
  cases cs with
  | nil => exact Option.noConfusion h
  | cons c rest =>
    obtain ⟨happ, hne⟩ := matchTermAt_append (c :: rest) t r h
    have htok : 1 ≤ t.length := by
      cases t with
      | nil => exact absurd rfl hne
      | cons x xs => simp
    have hlen : r.length ≤ rest.length := by
      have hl : t.length + r.length = rest.length + 1 := by
        rw [← List.length_append, happ]
        simp
      omega
    show findallAux (c :: rest).length (c :: rest) = t :: findall r
    rw [List.length_cons]
    simp only [findallAux, h]
    rw [findallAux_congr rest.length r rest.length r.length hlen hlen (le_refl _)]
    rfl

/-! ## Character classes and runs -/

theorem isDigit_ne (c : Char) (h : c.isDigit) :
    c ≠ ' ' ∧ c ≠ '+' ∧ c ≠ '-' ∧ c ≠ 'X' ∧ c ≠ '^' ∧ c ≠ '*' ∧ c ≠ '.' ∧ c ≠ '=' := by
  refine ⟨?_, ?_, ?_, ?_, ?_, ?_, ?_, ?_⟩ <;> (intro he; subst he; exact absurd h (by decide))

theorem takeWhile_run (p : Char → Bool) (ds : List Char) (c : Char) (r : List Char)
    (hds : ∀ x ∈ ds, p x) (hc : ¬ p c) :
    (ds ++ c :: r).takeWhile p = ds ∧ (ds ++ c :: r).dropWhile p = c :: r := by
  induction ds with
  | nil =>
    constructor
    · rw [List.nil_append, List.takeWhile_cons]
      simp [hc]
    · rw [List.nil_append, List.dropWhile_cons]
      simp [hc]
  | cons d ds2 ih =>
    have hd : p d := hds d (List.mem_cons_self _ _)
    have hds2 : ∀ x ∈ ds2, p x := fun x hx => hds x (List.mem_cons_of_mem d hx)
    obtain ⟨ih1, ih2⟩ := ih hds2
    constructor
    · rw [List.cons_append, List.takeWhile_cons, if_pos hd, ih1]
    · rw [List.cons_append, List.dropWhile_cons, if_pos hd, ih2]

theorem takeDigits_run (ds : List Char) (c : Char) (r : List Char)
    (hds : ∀ x ∈ ds, x.isDigit) (hc : ¬ c.isDigit) :
    takeDigits (ds ++ c :: r) = (ds, c :: r) := by
  obtain ⟨h1, h2⟩ := takeWhile_run Char.isDigit ds c r hds hc
  unfold takeDigits
  rw [h1, h2]

/-- The scanner matches exactly one well-formed rendered token at the
head of the input: optional sign, nonempty integer digits, a dot, the
fractional digits, the literal *X^ and one power digit. -/
theorem matchTermAt_complete (sgn ip fp : List Char) (pd : Char) (r : List Char)
    (hsgn : sgn = [] ∨ sgn = ['+'] ∨ sgn = ['-'])
    (hip : ip ≠ []) (hipd : ∀ c ∈ ip, c.isDigit)
    (hfp : ∀ c ∈ fp, c.isDigit)
    (hpd : pd.isDigit) :
    matchTermAt (sgn ++ (ip ++ '.' :: (fp ++ '*' :: 'X' :: '^' :: pd :: r))) =
      some (sgn ++ (ip ++ '.' :: (fp ++ '*' :: 'X' :: '^' :: [pd])), r) := by
  have h1 : takeSign (sgn ++ (ip ++ '.' :: (fp ++ '*' :: 'X' :: '^' :: pd :: r))) =
      (sgn, ip ++ '.' :: (fp ++ '*' :: 'X' :: '^' :: pd :: r)) := by
    rcases hsgn with rfl | rfl | rfl
    · cases ip with
      | nil => exact absurd rfl hip
      | cons i0 ip2 =>
        have hd : i0.isDigit := hipd i0 (List.mem_cons_self _ _)
        have hns : ¬(i0 = '+' ∨ i0 = '-') := by
          rintro (rfl | rfl) <;> exact absurd hd (by decide)
        simp [takeSign, hns]
    · simp [takeSign]
    · simp [takeSign]
  have h2 : takeDigits (ip ++ '.' :: (fp ++ '*' :: 'X' :: '^' :: pd :: r)) =
      (ip, '.' :: (fp ++ '*' :: 'X' :: '^' :: pd :: r)) :=
    takeDigits_run ip '.' _ hipd (by decide)
  have h4 : takeDigits (fp ++ '*' :: 'X' :: '^' :: pd :: r) =
      (fp, '*' :: 'X' :: '^' :: pd :: r) :=
    takeDigits_run fp '*' _ hfp (by decide)
  unfold matchTermAt
  rw [h1]
  simp only [h2, takeDot, h4, takeStar, matchTail, if_pos hpd]
  simp [List.append_assoc]

/-! ## parse_term on rendered tokens -/

theorem stripSignsSpaces_append (a b : List Char) :
    stripSignsSpaces (a ++ b) = stripSignsSpaces a ++ stripSignsSpaces b := by
  simp [stripSignsSpaces]

theorem stripSignsSpaces_clean (cs : List Char)
    (h : ∀ c ∈ cs, c ≠ ' ' ∧ c ≠ '+' ∧ c ≠ '-') :
    stripSignsSpaces cs = cs := by
  unfold stripSignsSpaces
  rw [List.filter_eq_self]
  intro c hc
  obtain ⟨h1, h2, h3⟩ := h c hc
  simp [h1, h2, h3]

theorem findSub_no_star (sep cs : List Char) (hsep : sep ≠ []) (hhead : sep.head? = some '*')
    (h : '*' ∉ cs) : findSub sep cs = none := by
  induction cs with
  | nil => rfl
  | cons c rest ih =>
    have hc : c ≠ '*' := fun he => h (he ▸ List.mem_cons_self c rest)
    have hrest : '*' ∉ rest := fun hr => h (List.mem_cons_of_mem c hr)
    unfold findSub
    rw [if_neg, ih hrest]
    · rfl
    · cases sep with
      | nil => exact absurd rfl hsep
      | cons s0 sep2 =>
        have hs0 : s0 = '*' := by
          have : some s0 = some '*' := hhead
          exact Option.some.inj this
        subst hs0
        simp [isPrefList]
        intro he
        exact absurd he.symm hc

theorem findSub_starXcaret (pre post : List Char) (hpre : '*' ∉ pre) :
    findSub ['*', 'X', '^'] (pre ++ '*' :: 'X' :: '^' :: post) = some (pre, post) := by
  induction pre with
  | nil =>
    rw [List.nil_append]
    unfold findSub
    rw [if_pos (by simp [isPrefList])]
    rfl
  | cons c pre2 ih =>
    have hc : c ≠ '*' := fun he => hpre (he ▸ List.mem_cons_self c pre2)
    have hpre2 : '*' ∉ pre2 := fun hr => hpre (List.mem_cons_of_mem c hr)
    rw [List.cons_append]
    unfold findSub
    rw [if_neg, ih hpre2]
    · rfl
    · simp [isPrefList]
      intro he
      exact absurd he.symm hc

theorem parseNat_digits (cs : List Char) (hne : cs ≠ []) (hd : ∀ c ∈ cs, c.isDigit) :
    parseNat cs = some (digitsVal cs) := by
  unfold parseNat
  rw [if_pos]
  exact ⟨hne, List.all_eq_true.mpr (fun c hc => hd c hc)⟩

theorem parseFloat_decimal (ip fp : List Char)
    (hipd : ∀ c ∈ ip, c.isDigit) (hfp : ∀ c ∈ fp, c.isDigit) (hne : ip ≠ [] ∨ fp ≠ []) :
    parseFloat (ip ++ '.' :: fp) =
      some ((digitsVal ip : ℚ) + (digitsVal fp : ℚ) / (10 : ℚ) ^ fp.length) := by
  have hrun := takeWhile_run (fun c => c ≠ '.') ip '.' fp
    (fun x hx => by simpa using (isDigit_ne x (hipd x hx)).2.2.2.2.2.2.1) (by simp)
  obtain ⟨h1, h2⟩ := hrun
  unfold parseFloat
  simp only [h1, h2]
  rw [if_pos]
  refine ⟨?_, hne, ?_, ?_⟩
  · intro hdot
    exact absurd rfl (isDigit_ne '.' (hfp '.' hdot)).2.2.2.2.2.2.1
  · exact List.all_eq_true.mpr (fun c hc => hipd c hc)
  · exact List.all_eq_true.mpr (fun c hc => hfp c hc)

/-- parse_term on a rendered token: the coefficient is the decimal value
of the digits and the power is the value of the single power digit. -/
theorem parse_term_formatted (sgn ip fp : List Char) (pd : Char)
    (hsgn : sgn = [] ∨ sgn = ['+'] ∨ sgn = ['-'])
    (hip : ip ≠ []) (hipd : ∀ c ∈ ip, c.isDigit)
    (hfp : ∀ c ∈ fp, c.isDigit)
    (hpd : pd.isDigit) :
    parse_term (sgn ++ (ip ++ '.' :: (fp ++ '*' :: 'X' :: '^' :: [pd]))) =
      some ((digitsVal ip : ℚ) + (digitsVal fp : ℚ) / (10 : ℚ) ^ fp.length,
        digitsVal [pd]) := by
  have hclean : ∀ c ∈ ip ++ '.' :: (fp ++ '*' :: 'X' :: '^' :: [pd]),
      c ≠ ' ' ∧ c ≠ '+' ∧ c ≠ '-' := by
    intro c hc
    simp only [List.mem_append, List.mem_cons, List.not_mem_nil, or_false] at hc
    have hdig : c.isDigit ∨ c = '.' ∨ c = '*' ∨ c = 'X' ∨ c = '^' := by
      rcases hc with hc1 | hc2 | hc3 | hc4 | hc5 | hc6 | hc7
      · exact Or.inl (hipd c hc1)
      · exact Or.inr (Or.inl hc2)
      · exact Or.inl (hfp c hc3)
      · exact Or.inr (Or.inr (Or.inl hc4))
      · exact Or.inr (Or.inr (Or.inr (Or.inl hc5)))
      · exact Or.inr (Or.inr (Or.inr (Or.inr hc6)))
      · exact Or.inl (hc7 ▸ hpd)
    rcases hdig with hd | rfl | rfl | rfl | rfl
    · have := isDigit_ne c hd
      exact ⟨this.1, this.2.1, this.2.2.1⟩
    · exact ⟨by decide, by decide, by decide⟩
    · exact ⟨by decide, by decide, by decide⟩
    · exact ⟨by decide, by decide, by decide⟩
    · exact ⟨by decide, by decide, by decide⟩
  have hsgnstrip : stripSignsSpaces sgn = [] := by
    rcases hsgn with rfl | rfl | rfl <;> rfl
  have hstrip : stripSignsSpaces (sgn ++ (ip ++ '.' :: (fp ++ '*' :: 'X' :: '^' :: [pd]))) =
      ip ++ '.' :: (fp ++ '*' :: 'X' :: '^' :: [pd]) := by
    rw [stripSignsSpaces_append, hsgnstrip, List.nil_append,
      stripSignsSpaces_clean _ hclean]
  obtain ⟨i0, ip2, rfl⟩ : ∃ i0 ip2, ip = i0 :: ip2 := by
    cases ip with
    | nil => exact absurd rfl hip
    | cons i0 ip2 => exact ⟨i0, ip2, rfl⟩
  have hi0 : i0.isDigit := hipd i0 (List.mem_cons_self _ _)
  have hb1 : isPrefList ['X', '^'] (i0 :: ip2 ++ '.' :: (fp ++ '*' :: 'X' :: '^' :: [pd])) =
      false := by
    simp [isPrefList]
    intro he
    exact absurd he.symm (isDigit_ne i0 hi0).2.2.2.1
  have hb2 : isPrefList ['-', 'X', '^'] (i0 :: ip2 ++ '.' :: (fp ++ '*' :: 'X' :: '^' :: [pd])) =
      false := by
    simp [isPrefList]
    intro he
    exact absurd he.symm (isDigit_ne i0 hi0).2.2.1
  have hnostar_pre : '*' ∉ (i0 :: ip2) ++ '.' :: fp := by
    intro hmem
    rcases List.mem_append.mp hmem with hm1 | hm2
    · exact absurd rfl (isDigit_ne '*' (hipd '*' hm1)).2.2.2.2.2.1
    · rcases List.mem_cons.mp hm2 with he | hm3
      · exact absurd he (by decide)
      · exact absurd rfl (isDigit_ne '*' (hfp '*' hm3)).2.2.2.2.2.1
  have hfind : findSub ['*', 'X', '^'] ((i0 :: ip2) ++ '.' :: (fp ++ '*' :: 'X' :: '^' :: [pd])) =
      some ((i0 :: ip2) ++ '.' :: fp, [pd]) := by
    have := findSub_starXcaret ((i0 :: ip2) ++ '.' :: fp) [pd] hnostar_pre
    simpa [List.append_assoc] using this
  have hfind2 : findSub ['*', 'X', '^'] [pd] = none := by
    apply findSub_no_star _ _ (by simp) (by simp)
    intro hmem
    rcases List.mem_cons.mp hmem with he | hm
    · exact absurd rfl (isDigit_ne '*' (he ▸ hpd)).2.2.2.2.2.1
    · exact absurd hm (List.not_mem_nil _)
  unfold parse_term
  simp only [hstrip, hb1, hb2, Bool.false_eq_true, if_false]
  unfold splitFirstTwo
  simp only [hfind, hfind2]
  rw [parseFloat_decimal _ _ hipd hfp (Or.inl (by simp)),
    parseNat_digits [pd] (by simp) (by simpa using hpd)]

/-! ## Decimal rendering: digits render and read back -/

theorem digitChar_toNat (m : Nat) (h : m < 10) : (Char.ofNat (48 + m)).toNat = 48 + m := by
  interval_cases m <;> decide

theorem digitChar_isDigit (m : Nat) (h : m < 10) : (Char.ofNat (48 + m)).isDigit := by
  interval_cases m <;> decide

theorem natDigitsAux_zero_eq (fuel : Nat) : natDigitsAux fuel 0 = [] := by
  cases fuel <;> rfl

theorem natDigitsAux_digits (fuel : Nat) : ∀ n, ∀ c ∈ natDigitsAux fuel n, c.isDigit := by
  induction fuel with
  | zero =>
    intro n c hc
    exact absurd hc (List.not_mem_nil c)
  | succ f ih =>
    intro n c hc
    unfold natDigitsAux at hc
    by_cases hn : n = 0
    · rw [if_pos hn] at hc
      exact absurd hc (List.not_mem_nil c)
    · rw [if_neg hn] at hc
      rcases List.mem_cons.mp hc with rfl | hc2
      · exact digitChar_isDigit (n % 10) (Nat.mod_lt n (by norm_num))
      · exact ih (n / 10) c hc2

theorem natDigits_digits (n : Nat) : ∀ c ∈ natDigits n, c.isDigit := by
  intro c hc
  unfold natDigits at hc
  by_cases hn : n = 0
  · rw [if_pos hn] at hc
    rcases List.mem_cons.mp hc with rfl | hc2
    · decide
    · exact absurd hc2 (List.not_mem_nil c)
  · rw [if_neg hn, List.mem_reverse] at hc
    exact natDigitsAux_digits (n + 1) n c hc

theorem natDigits_ne_nil (n : Nat) : natDigits n ≠ [] := by
  unfold natDigits
  by_cases hn : n = 0
  · rw [if_pos hn]
    simp
  · rw [if_neg hn]
    intro hrev
    rw [List.reverse_eq_nil_iff] at hrev
    unfold natDigitsAux at hrev
    rw [if_neg hn] at hrev
    exact List.noConfusion hrev

theorem digitsVal_append_singleton (xs : List Char) (c : Char) :
    digitsVal (xs ++ [c]) = 10 * digitsVal xs + (c.toNat - 48) := by
  unfold digitsVal
  rw [List.foldl_append]
  rfl

theorem digitsVal_natDigitsAux (fuel : Nat) : ∀ n, n ≤ fuel →
    digitsVal (natDigitsAux fuel n).reverse = n := by
  induction fuel with
  | zero =>
    intro n h
    have hn : n = 0 := Nat.le_zero.mp h
    subst hn
    rfl
  | succ f ih =>
    intro n h
    by_cases hn : n = 0
    · subst hn
      rfl
    · unfold natDigitsAux
      rw [if_neg hn, List.reverse_cons, digitsVal_append_singleton]
      have hdiv : n / 10 ≤ f := by
        have := Nat.div_lt_self (Nat.pos_of_ne_zero hn) (by norm_num : 1 < 10)
        omega
      rw [ih (n / 10) hdiv, digitChar_toNat (n % 10) (Nat.mod_lt n (by norm_num))]
      have := Nat.div_add_mod n 10
      omega

theorem digitsVal_natDigits (n : Nat) : digitsVal (natDigits n) = n := by
  unfold natDigits
  by_cases hn : n = 0
  · rw [if_pos hn, hn]
    rfl
  · rw [if_neg hn]
    exact digitsVal_natDigitsAux (n + 1) n (by omega)

theorem padZero_digits (len : Nat) (xs : List Char) (h : ∀ c ∈ xs, c.isDigit) :
    ∀ c ∈ padZero len xs, c.isDigit := by
  intro c hc
  unfold padZero at hc
  rcases List.mem_append.mp hc with hc1 | hc2
  · rw [List.eq_of_mem_replicate hc1]
    decide
  · exact h c hc2

theorem digitsVal_replicate_zero (j : Nat) (xs : List Char) :
    digitsVal (List.replicate j '0' ++ xs) = digitsVal xs := by
  induction j with
  | zero => rfl
  | succ k ih =>
    rw [List.replicate_succ, List.cons_append]
    unfold digitsVal
    rw [List.foldl_cons]
    have hz : (10 * 0 + ('0'.toNat - 48)) = 0 := by decide
    rw [hz]
    exact ih

theorem digitsVal_padZero (len : Nat) (xs : List Char) :
    digitsVal (padZero len xs) = digitsVal xs :=
  digitsVal_replicate_zero _ xs

theorem padZero_length (len : Nat) (xs : List Char) (h : xs.length ≤ len) :
    (padZero len xs).length = len := by
  unfold padZero
  rw [List.length_append, List.length_replicate]
  omega

theorem natDigitsAux_len_lt10 (fuel n : Nat) (h : n < 10) :
    (natDigitsAux fuel n).length ≤ 1 := by
  cases fuel with
  | zero => simp [natDigitsAux]
  | succ f =>
    unfold natDigitsAux
    by_cases hn : n = 0
    · rw [if_pos hn]
      simp
    · rw [if_neg hn]
      rw [List.length_cons]
      have hd : n / 10 = 0 := Nat.div_eq_of_lt h
      rw [hd, natDigitsAux_zero_eq]
      simp

theorem natDigits_len_lt100 (n : Nat) (h : n < 100) : (natDigits n).length ≤ 2 := by
  unfold natDigits
  by_cases hn : n = 0
  · rw [if_pos hn]
    simp
  · rw [if_neg hn, List.length_reverse]
    unfold natDigitsAux
    rw [if_neg hn, List.length_cons]
    have hd : n / 10 < 10 := by omega
    have := natDigitsAux_len_lt10 n (n / 10) hd
    omega

theorem natDigits_single (p : Nat) (h : p ≤ 9) : ∃ c, natDigits p = [c] ∧ c.isDigit ∧
    digitsVal [c] = p := by
  refine ⟨Char.ofNat (48 + p), ?_, digitChar_isDigit p (by omega), ?_⟩
  · interval_cases p <;> rfl
  · have := digitChar_toNat p (by omega)
    unfold digitsVal
    rw [List.foldl_cons]
    simp [this]

theorem roundHalfEven_nonneg (q : ℚ) (h : 0 ≤ q) : 0 ≤ roundHalfEven q := by
  unfold roundHalfEven
  simp only []
  have hf : (0 : ℤ) ≤ ⌊q⌋ := Int.floor_nonneg.mpr h
  split_ifs <;> omega

/-- The value rounded to two decimals, as rendered and re-read by the
round trip: sign times the half-even rounding of 100 |q|, divided by
100. -/
def round2 (q : ℚ) : ℚ :=
  (if q < 0 then -1 else 1) * ((roundHalfEven (|q| * 100) : ℤ) : ℚ) / 100

theorem fmtFixed_two_eq (q : ℚ) :
    fmtFixed 2 q = (if q < 0 then ['-'] else []) ++
      (natDigits ((roundHalfEven (|q| * (10 : ℚ) ^ 2)).toNat / 10 ^ 2) ++
      '.' :: padZero 2 (natDigits ((roundHalfEven (|q| * (10 : ℚ) ^ 2)).toNat % 10 ^ 2))) := by
  unfold fmtFixed
  simp [List.append_assoc]

/-- Reading back the two rendered digit groups gives exactly the rounded
magnitude divided by 100. -/
theorem fmt_readback (n : Nat) :
    (digitsVal (natDigits (n / 10 ^ 2)) : ℚ) +
      (digitsVal (padZero 2 (natDigits (n % 10 ^ 2))) : ℚ) /
        (10 : ℚ) ^ (padZero 2 (natDigits (n % 10 ^ 2))).length = (n : ℚ) / 100 := by
  have hlen : (padZero 2 (natDigits (n % 10 ^ 2))).length = 2 :=
    padZero_length 2 _ (natDigits_len_lt100 _ (by
      have := Nat.mod_lt n (show 0 < 10 ^ 2 by norm_num)
      omega))
  rw [hlen, digitsVal_padZero, digitsVal_natDigits, digitsVal_natDigits]
  have hdm := Nat.div_add_mod n (10 ^ 2)
  have hcast : ((n / 10 ^ 2 : Nat) : ℚ) * 100 + ((n % 10 ^ 2 : Nat) : ℚ) = (n : ℚ) := by
    have : (((10 ^ 2) * (n / 10 ^ 2) + n % 10 ^ 2 : Nat) : ℚ) = (n : ℚ) := by
      rw [hdm]
    push_cast at this
    linarith
  have h100 : ((10 : ℚ) ^ 2) = 100 := by norm_num
  rw [h100]
  field_simp
  linarith

/-! ## Every successfully parsed token has a single-digit power -/

theorem isDigit_toNat (c : Char) (h : c.isDigit) : 48 ≤ c.toNat ∧ c.toNat ≤ 57 := by
  unfold Char.isDigit at h
  rw [Bool.and_eq_true] at h
  obtain ⟨h1, h2⟩ := h
  rw [decide_eq_true_eq] at h1 h2
  exact ⟨BitVec.le_def.mp (UInt32.le_def.mp h1), BitVec.le_def.mp (UInt32.le_def.mp h2)⟩

theorem digitsVal_single_le9 (d : Char) (h : d.isDigit) : digitsVal [d] ≤ 9 := by
  have := isDigit_toNat d h
  unfold digitsVal
  simp
  omega

theorem takeSign_shape (cs : List Char) :
    (takeSign cs).1 = [] ∨ (takeSign cs).1 = ['+'] ∨ (takeSign cs).1 = ['-'] := by
  cases cs with
  | nil => exact Or.inl rfl
  | cons c rest =>
    simp only [takeSign]
    by_cases hc : c = '+' ∨ c = '-'
    · rw [if_pos hc]
      rcases hc with rfl | rfl
      · exact Or.inr (Or.inl rfl)
      · exact Or.inr (Or.inr rfl)
    · rw [if_neg hc]
      exact Or.inl rfl

theorem takeDigits_fst_digits (cs : List Char) : ∀ x ∈ (takeDigits cs).1, x.isDigit :=
  fun _ hx => List.mem_takeWhile_imp hx

theorem takeDot_shape (cs : List Char) : (takeDot cs).1 = [] ∨ (takeDot cs).1 = ['.'] := by
  unfold takeDot
  split
  · exact Or.inr rfl
  · exact Or.inl rfl

theorem takeStar_shape (cs : List Char) : (takeStar cs).1 = [] ∨ (takeStar cs).1 = ['*'] := by
  unfold takeStar
  split
  · exact Or.inr rfl
  · exact Or.inl rfl

/-- Full shape of a matched token: optional sign, digit run, optional
dot, digit run, optional star, the X, then an optional caret and exactly
one power digit. -/
theorem matchTermAt_shape_full (cs t r : List Char) (h : matchTermAt cs = some (t, r)) :
    ∃ sgn d1 dot d2 st tl,
      t = sgn ++ d1 ++ dot ++ d2 ++ st ++ 'X' :: tl ∧
      (sgn = [] ∨ sgn = ['+'] ∨ sgn = ['-']) ∧
      (∀ x ∈ d1, x.isDigit) ∧ (dot = [] ∨ dot = ['.']) ∧
      (∀ x ∈ d2, x.isDigit) ∧ (st = [] ∨ st = ['*']) ∧
      ∃ d, d.isDigit ∧ (tl = ['^', d] ∨ tl = [d]) := by
  unfold matchTermAt at h
  simp only [] at h
  split at h
  · rename_i r6 heq
    split at h
    · rename_i tl rest htl
      obtain ⟨h1, h2⟩ := Prod.mk.injEq .. ▸ Option.some.inj h
      exact ⟨_, _, _, _, _, tl, h1.symm, takeSign_shape cs, takeDigits_fst_digits _,
        takeDot_shape _, takeDigits_fst_digits _, takeStar_shape _,
        matchTail_shape r6 tl rest htl⟩
    · exact Option.noConfusion h
  · exact Option.noConfusion h

theorem isPrefList_false_head (c0 : Char) (sep cs : List Char)
    (h : ∀ hd, cs.head? = some hd → c0 ≠ hd) : isPrefList (c0 :: sep) cs = false := by
  cases cs with
  | nil => rfl
  | cons b rest =>
    have hb : c0 ≠ b := h b rfl
    simp [isPrefList, hb]

theorem findSub_starX_no_caret (pre : List Char) (d : Char) (hpre : '*' ∉ pre)
    (hd1 : d ≠ '^') (hd2 : d ≠ '*') :
    findSub ['*', 'X', '^'] (pre ++ '*' :: 'X' :: [d]) = none := by
  induction pre with
  | nil =>
    rw [List.nil_append]
    unfold findSub
    have hpref : isPrefList ['*', 'X', '^'] ('*' :: 'X' :: [d]) = false := by
      simp [isPrefList]
      intro he
      exact absurd he.symm hd1
    have hns : '*' ∉ ('X' :: [d]) := by
      intro hm
      rcases List.mem_cons.mp hm with he | hm2
      · exact absurd he (by decide)
      · rcases List.mem_cons.mp hm2 with he2 | hm3
        · exact absurd he2.symm hd2
        · exact absurd hm3 (List.not_mem_nil _)
    rw [if_neg (by simp [hpref]),
      findSub_no_star ['*', 'X', '^'] ('X' :: [d]) (by simp) (by simp) hns]
    rfl
  | cons c pre2 ih =>
    have hc : c ≠ '*' := fun he => hpre (he ▸ List.mem_cons_self c pre2)
    have hpre2 : '*' ∉ pre2 := fun hr => hpre (List.mem_cons_of_mem c hr)
    rw [List.cons_append]
    unfold findSub
    rw [if_neg, ih hpre2]
    · rfl
    · simp [isPrefList]
      intro he
      exact absurd he.symm hc

/-- A successfully parsed token coming out of the scanner always has a
power of at most 9: the pattern can only capture one power digit. -/
theorem parse_power_le9 (cs t r : List Char) (hm : matchTermAt cs = some (t, r))
    (c : ℚ) (p : Nat) (hp : parse_term t = some (c, p)) : p ≤ 9 := by
  obtain ⟨sgn, d1, dot, d2, st, tl, ht, hsgn, hd1, hdot, hd2, hst, d, hdig, htl⟩ :=
    matchTermAt_shape_full cs t r hm
  subst ht
  have hXtl_clean : ∀ x ∈ 'X' :: tl, x ≠ ' ' ∧ x ≠ '+' ∧ x ≠ '-' := by
    intro x hx
    rcases List.mem_cons.mp hx with rfl | hx2
    · exact ⟨by decide, by decide, by decide⟩
    · rcases htl with rfl | rfl
      · rcases List.mem_cons.mp hx2 with rfl | hx3
        · exact ⟨by decide, by decide, by decide⟩
        · rcases List.mem_cons.mp hx3 with rfl | hx4
          · have := isDigit_ne x hdig
            exact ⟨this.1, this.2.1, this.2.2.1⟩
          · exact absurd hx4 (List.not_mem_nil _)
      · rcases List.mem_cons.mp hx2 with rfl | hx3
        · have := isDigit_ne x hdig
          exact ⟨this.1, this.2.1, this.2.2.1⟩
        · exact absurd hx3 (List.not_mem_nil _)
  have hdot_clean : ∀ x ∈ dot, x ≠ ' ' ∧ x ≠ '+' ∧ x ≠ '-' := by
    intro x hx
    rcases hdot with rfl | rfl
    · exact absurd hx (List.not_mem_nil _)
    · rcases List.mem_cons.mp hx with rfl | hx2
      · exact ⟨by decide, by decide, by decide⟩
      · exact absurd hx2 (List.not_mem_nil _)
  have hst_clean : ∀ x ∈ st, x ≠ ' ' ∧ x ≠ '+' ∧ x ≠ '-' := by
    intro x hx
    rcases hst with rfl | rfl
    · exact absurd hx (List.not_mem_nil _)
    · rcases List.mem_cons.mp hx with rfl | hx2
      · exact ⟨by decide, by decide, by decide⟩
      · exact absurd hx2 (List.not_mem_nil _)
  have hdig_clean : ∀ (l : List Char), (∀ x ∈ l, x.isDigit) →
      ∀ x ∈ l, x ≠ ' ' ∧ x ≠ '+' ∧ x ≠ '-' := by
    intro l hl x hx
    have := isDigit_ne x (hl x hx)
    exact ⟨this.1, this.2.1, this.2.2.1⟩
  have hs : stripSignsSpaces (sgn ++ d1 ++ dot ++ d2 ++ st ++ 'X' :: tl) =
      d1 ++ dot ++ d2 ++ st ++ 'X' :: tl := by
    repeat rw [stripSignsSpaces_append]
    have e0 : stripSignsSpaces sgn = [] := by
      rcases hsgn with rfl | rfl | rfl <;> rfl
    rw [e0, stripSignsSpaces_clean d1 (hdig_clean d1 hd1),
      stripSignsSpaces_clean dot hdot_clean,
      stripSignsSpaces_clean d2 (hdig_clean d2 hd2),
      stripSignsSpaces_clean st hst_clean,
      stripSignsSpaces_clean ('X' :: tl) hXtl_clean, List.nil_append]
  have hpre_mem : ∀ x ∈ d1 ++ dot ++ d2, x ≠ 'X' ∧ x ≠ '-' ∧ x ≠ '*' := by
    intro x hx
    rcases List.mem_append.mp hx with hx1 | hx3
    · rcases List.mem_append.mp hx1 with hx4 | hx5
      · have := isDigit_ne x (hd1 x hx4)
        exact ⟨this.2.2.2.1, this.2.2.1, this.2.2.2.2.2.1⟩
      · rcases hdot with rfl | rfl
        · exact absurd hx5 (List.not_mem_nil _)
        · rcases List.mem_cons.mp hx5 with rfl | hx6
          · exact ⟨by decide, by decide, by decide⟩
          · exact absurd hx6 (List.not_mem_nil _)
    · have := isDigit_ne x (hd2 x hx3)
      exact ⟨this.2.2.2.1, this.2.2.1, this.2.2.2.2.2.1⟩
  unfold parse_term at hp
  rw [hs] at hp
  simp only [] at hp
  rcases hst with rfl | rfl
  · -- no star: the *X^ separator cannot occur
    have hnostar : '*' ∉ d1 ++ dot ++ d2 ++ [] ++ 'X' :: tl := by
      intro hmem
      simp only [List.append_nil] at hmem
      rcases List.mem_append.mp hmem with hm1 | hm2
      · exact absurd rfl (hpre_mem '*' hm1).2.2
      · rcases List.mem_cons.mp hm2 with he | hm3
        · exact absurd he (by decide)
        · rcases htl with rfl | rfl
          · rcases List.mem_cons.mp hm3 with he2 | hm4
            · exact absurd he2 (by decide)
            · rcases List.mem_cons.mp hm4 with he3 | hm5
              · exact absurd rfl (isDigit_ne '*' (he3 ▸ hdig)).2.2.2.2.2.1
              · exact absurd hm5 (List.not_mem_nil _)
          · rcases List.mem_cons.mp hm3 with he2 | hm4
            · exact absurd rfl (isDigit_ne '*' (he2 ▸ hdig)).2.2.2.2.2.1
            · exact absurd hm4 (List.not_mem_nil _)
    by_cases hpre : d1 ++ dot ++ d2 = []
    · rw [hpre] at hp hnostar
      simp only [List.nil_append, List.append_nil] at hp hnostar
      rcases htl with rfl | rfl
      · -- s = X^d : the bare X^power branch fires
        rw [show isPrefList ['X', '^'] ('X' :: '^' :: [d]) = true by simp [isPrefList]] at hp
        rw [if_pos rfl] at hp
        rw [show List.drop 2 ('X' :: '^' :: [d]) = [d] from rfl] at hp
        rw [parseNat_digits [d] (by simp) (by simpa using hdig)] at hp
        have hp2 : some ((1 : ℚ), digitsVal [d]) = some (c, p) := hp
        obtain ⟨_, h2⟩ := Prod.mk.injEq .. ▸ Option.some.inj hp2
        rw [← h2]
        exact digitsVal_single_le9 d hdig
      · -- s = X d : no branch can fire
        rw [show isPrefList ['X', '^'] ('X' :: [d]) = false by
          simp [isPrefList]
          intro he
          exact absurd he.symm (isDigit_ne d hdig).2.2.2.2.1] at hp
        rw [show isPrefList ['-', 'X', '^'] ('X' :: [d]) = false by
          simp [isPrefList]] at hp
        simp only [Bool.false_eq_true, if_false] at hp
        unfold splitFirstTwo at hp
        rw [findSub_no_star ['*', 'X', '^'] ('X' :: [d]) (by simp) (by simp) (by
          intro hm
          rcases List.mem_cons.mp hm with he | hm2
          · exact absurd he.symm (by decide)
          · rcases List.mem_cons.mp hm2 with he2 | hm3
            · exact absurd rfl (isDigit_ne '*' (he2.symm ▸ hdig)).2.2.2.2.2.1
            · exact absurd hm3 (List.not_mem_nil _))] at hp
        exact Option.noConfusion hp
    · -- nonempty prefix of digits and dot, no star: nothing can fire
      obtain ⟨x0, xs, hx0⟩ : ∃ x0 xs, d1 ++ dot ++ d2 = x0 :: xs := by
        cases hpc : d1 ++ dot ++ d2 with
        | nil => exact absurd hpc hpre
        | cons a b => exact ⟨a, b, rfl⟩
      have hx0mem : x0 ∈ d1 ++ dot ++ d2 := by
        rw [hx0]
        exact List.mem_cons_self _ _
      have hx0p := hpre_mem x0 hx0mem
      rw [hx0] at hp hnostar
      simp only [List.append_nil, List.cons_append] at hp hnostar
      rw [isPrefList_false_head 'X' _ _ (by
        intro hd hh
        rw [List.head?_cons] at hh
        have hx : x0 = hd := Option.some.inj hh
        rw [← hx]
        exact Ne.symm hx0p.1)] at hp
      rw [isPrefList_false_head '-' _ _ (by
        intro hd hh
        rw [List.head?_cons] at hh
        have hx : x0 = hd := Option.some.inj hh
        rw [← hx]
        exact Ne.symm hx0p.2.1)] at hp
      simp only [Bool.false_eq_true, if_false] at hp
      unfold splitFirstTwo at hp
      rw [findSub_no_star ['*', 'X', '^'] _ (by simp) (by simp) hnostar] at hp
      exact Option.noConfusion hp
  · -- star present
    have hx0ne : ∀ hd, ((d1 ++ dot ++ d2) ++ '*' :: 'X' :: tl).head? = some hd →
        hd ≠ 'X' ∧ hd ≠ '-' := by
      intro hd hh
      cases hpc : d1 ++ dot ++ d2 with
      | nil =>
        rw [hpc, List.nil_append, List.head?_cons] at hh
        have : hd = '*' := (Option.some.inj hh).symm
        subst this
        exact ⟨by decide, by decide⟩
      | cons a b =>
        rw [hpc, List.cons_append, List.head?_cons] at hh
        have hx : a = hd := Option.some.inj hh
        have hmem := hpre_mem a (by rw [hpc]; exact List.mem_cons_self a b)
        rw [← hx]
        exact ⟨hmem.1, hmem.2.1⟩
    have hvm : d1 ++ dot ++ d2 ++ ['*'] ++ 'X' :: tl =
        (d1 ++ dot ++ d2) ++ '*' :: 'X' :: tl := by
      simp [List.append_assoc]
    rw [hvm] at hp
    rw [isPrefList_false_head 'X' _ _ (fun hd hh he => (hx0ne hd hh).1 he.symm)] at hp
    rw [isPrefList_false_head '-' _ _ (fun hd hh he => (hx0ne hd hh).2 he.symm)] at hp
    simp only [Bool.false_eq_true, if_false] at hp
    unfold splitFirstTwo at hp
    have hnostar_pre : '*' ∉ d1 ++ dot ++ d2 := fun hm => absurd rfl (hpre_mem '*' hm).2.2
    rcases htl with rfl | rfl
    · rw [show (d1 ++ dot ++ d2) ++ '*' :: 'X' :: ['^', d] =
          (d1 ++ dot ++ d2) ++ '*' :: 'X' :: '^' :: [d] from rfl] at hp
      rw [findSub_starXcaret _ [d] hnostar_pre] at hp
      simp only [] at hp
      rw [findSub_no_star ['*', 'X', '^'] [d] (by simp) (by simp) (by
        intro hm
        rcases List.mem_cons.mp hm with he | hm2
        · exact absurd rfl (isDigit_ne '*' (he.symm ▸ hdig)).2.2.2.2.2.1
        · exact absurd hm2 (List.not_mem_nil _))] at hp
      simp only [] at hp
      rw [parseNat_digits [d] (by simp) (by simpa using hdig)] at hp
      cases hpf : parseFloat (d1 ++ dot ++ d2) with
      | none =>
        rw [hpf] at hp
        exact Option.noConfusion hp
      | some cv =>
        rw [hpf] at hp
        obtain ⟨_, h2⟩ := Prod.mk.injEq .. ▸ Option.some.inj hp
        rw [← h2]
        exact digitsVal_single_le9 d hdig
    · rw [findSub_starX_no_caret _ d hnostar_pre
        (isDigit_ne d hdig).2.2.2.2.1 (isDigit_ne d hdig).2.2.2.2.2.1] at hp
      exact Option.noConfusion hp

/-! ## The reducer's maps: keys are distinct and at most 9 -/

theorem dictKeys_dictSet (m : CoeffMap) (p : Nat) (v : ℚ) :
    dictKeys (dictSet m p v) =
      if p ∈ dictKeys m then dictKeys m else dictKeys m ++ [p] := by
  induction m with
  | nil => simp [dictSet, dictKeys]
  | cons kv rest ih =>
    obtain ⟨k, w⟩ := kv
    by_cases hkp : k = p
    · subst hkp
      simp [dictSet, dictKeys]
    · have hne : ¬ p = k := fun he => hkp he.symm
      by_cases hmem : p ∈ dictKeys rest
      · have hmem2 : p ∈ dictKeys ((k, w) :: rest) := by
          simp [dictKeys] at hmem ⊢
          exact Or.inr hmem
        rw [if_pos hmem2]
        simp only [dictSet, if_neg hkp, dictKeys, List.map_cons]
        have := ih
        rw [if_pos hmem] at this
        rw [show dictKeys (dictSet rest p v) = List.map Prod.fst (dictSet rest p v) from rfl] at this
        rw [this]
        rfl
      · have hmem2 : ¬ p ∈ dictKeys ((k, w) :: rest) := by
          simp [dictKeys] at hmem ⊢
          exact ⟨hne, hmem⟩
        rw [if_neg hmem2]
        simp only [dictSet, if_neg hkp, dictKeys, List.map_cons]
        have := ih
        rw [if_neg hmem] at this
        rw [show dictKeys (dictSet rest p v) = List.map Prod.fst (dictSet rest p v) from rfl] at this
        rw [this]
        rfl

theorem dictSet_nodup (m : CoeffMap) (p : Nat) (v : ℚ) (h : (dictKeys m).Nodup) :
    (dictKeys (dictSet m p v)).Nodup := by
  rw [dictKeys_dictSet]
  by_cases hmem : p ∈ dictKeys m
  · rw [if_pos hmem]
    exact h
  · rw [if_neg hmem]
    rw [List.nodup_append]
    refine ⟨h, List.nodup_singleton p, ?_⟩
    intro a ha hap
    exact hmem ((List.mem_singleton.mp hap) ▸ ha)

theorem accumSide_nodup (s : ℚ) (ts : List (List Char)) (m m2 : CoeffMap)
    (h : accumSide s ts m = some m2) (hm : (dictKeys m).Nodup) :
    (dictKeys m2).Nodup := by
  induction ts generalizing m with
  | nil =>
    simp [accumSide] at h
    subst h
    exact hm
  | cons t ts ih =>
    cases hp : parse_term t with
    | none =>
      rw [accumSide_cons_none s t ts m hp] at h
      exact absurd h (by simp)
    | some cq =>
      obtain ⟨c, q⟩ := cq
      rw [accumSide_cons_some s t ts m c q hp] at h
      exact ih _ h (dictSet_nodup m q _ hm)

theorem reduce_nodup (eq : List Char) (m : CoeffMap)
    (h : get_reduced_form_coeffs eq = some m) : (dictKeys m).Nodup := by
  unfold get_reduced_form_coeffs at h
  split at h
  case h_2 => exact Option.noConfusion h
  case h_1 l r h0 h1 =>
    unfold reduceSides at h
    cases hL : accumSide 1 (findall (stripSpaces l)) [] with
    | none =>
      rw [hL] at h
      exact Option.noConfusion h
    | some m1 =>
      rw [hL] at h
      replace h : accumSide (-1) (findall (stripSpaces r)) m1 = some m := h
      exact accumSide_nodup _ _ _ _ h
        (accumSide_nodup _ _ _ _ hL (by simp [dictKeys]))

theorem findallAux_mem (fuel : Nat) : ∀ cs t, t ∈ findallAux fuel cs →
    ∃ cs2 r, matchTermAt cs2 = some (t, r) := by
  induction fuel with
  | zero =>
    intro cs t ht
    exact absurd ht (List.not_mem_nil _)
  | succ f ih =>
    intro cs t ht
    cases cs with
    | nil => exact absurd ht (List.not_mem_nil _)
    | cons c rest =>
      cases hm : matchTermAt (c :: rest) with
      | none =>
        simp only [findallAux, hm] at ht
        exact ih rest t ht
      | some pr =>
        obtain ⟨tok, r⟩ := pr
        simp only [findallAux, hm] at ht
        rcases List.mem_cons.mp ht with rfl | ht2
        · exact ⟨c :: rest, r, hm⟩
        · exact ih r t ht2

theorem findall_mem (cs t : List Char) (h : t ∈ findall cs) :
    ∃ cs2 r, matchTermAt cs2 = some (t, r) :=
  findallAux_mem cs.length cs t h

/-- Every key of a map produced by the reducer is a single-digit power. -/
theorem reduce_keys_le9 (eq : List Char) (m : CoeffMap)
    (h : get_reduced_form_coeffs eq = some m) (p : Nat)
    (hp : (dictGet m p).isSome) : p ≤ 9 := by
  unfold get_reduced_form_coeffs at h
  split at h
  case h_2 => exact Option.noConfusion h
  case h_1 l r h0 h1 =>
    unfold reduceSides at h
    cases hL : accumSide 1 (findall (stripSpaces l)) [] with
    | none =>
      rw [hL] at h
      exact Option.noConfusion h
    | some m1 =>
      rw [hL] at h
      replace h : accumSide (-1) (findall (stripSpaces r)) m1 = some m := h
      have h2 := (accumSide_mem (-1) _ _ _ h p).mp hp
      rcases h2 with hmid | ⟨t, ht, c, hc⟩
      · have h3 := (accumSide_mem 1 _ _ _ hL p).mp hmid
        rcases h3 with hnil | ⟨t, ht, c, hc⟩
        · rw [dictGet_nil] at hnil
          exact absurd hnil (by simp)
        · obtain ⟨cs2, r2, hm2⟩ := findall_mem _ t ht
          exact parse_power_le9 cs2 t r2 hm2 c p hc
      · obtain ⟨cs2, r2, hm2⟩ := findall_mem _ t ht
        exact parse_power_le9 cs2 t r2 hm2 c p hc

/-! ## Round trip (claim C8): membership, permutation and string lemmas -/

theorem dictGet_mem (m : CoeffMap) (q : Nat) (v : ℚ) (h : dictGet m q = some v) :
    (q, v) ∈ m := by
  induction m with
  | nil => exact Option.noConfusion h
  | cons kv rest ih =>
    obtain ⟨k, w⟩ := kv
    rw [dictGet_cons] at h
    by_cases hk : k = q
    · rw [if_pos hk] at h
      subst hk
      rw [Option.some.inj h]
      exact List.mem_cons_self _ _
    · rw [if_neg hk] at h
      exact List.mem_cons_of_mem _ (ih h)

theorem dictGet_isSome_of_mem (m : CoeffMap) (q : Nat) (v : ℚ) (h : (q, v) ∈ m) :
    (dictGet m q).isSome := by
  induction m with
  | nil => exact absurd h (List.not_mem_nil _)
  | cons kv rest ih =>
    obtain ⟨k, w⟩ := kv
    rw [dictGet_cons]
    by_cases hk : k = q
    · rw [if_pos hk]
      rfl
    · rw [if_neg hk]
      rcases List.mem_cons.mp h with he | hm
      · exact absurd (congrArg Prod.fst he).symm hk
      · exact ih hm

theorem dictGet_of_mem_nodup (m : CoeffMap) (q : Nat) (v : ℚ)
    (hnd : (dictKeys m).Nodup) (h : (q, v) ∈ m) : dictGet m q = some v := by
  induction m with
  | nil => exact absurd h (List.not_mem_nil _)
  | cons kv rest ih =>
    obtain ⟨k, w⟩ := kv
    have hnd2 : (dictKeys rest).Nodup ∧ k ∉ dictKeys rest := by
      have := List.nodup_cons.mp hnd
      exact ⟨this.2, this.1⟩
    rw [dictGet_cons]
    rcases List.mem_cons.mp h with he | hm
    · obtain ⟨h1, h2⟩ := Prod.mk.injEq .. ▸ he
      rw [if_pos h1.symm]
      rw [h2]
    · by_cases hk : k = q
      · subst hk
        have : k ∈ dictKeys rest := by
          have : (k, v) ∈ rest := hm
          exact List.mem_map_of_mem Prod.fst this
        exact absurd this hnd2.2
      · rw [if_neg hk]
        exact ih hnd2.1 hm

theorem insertByKey_perm (x : Nat × ℚ) (l : CoeffMap) :
    (insertByKey x l).Perm (x :: l) := by
  induction l with
  | nil => exact List.Perm.refl _
  | cons y rest ih =>
    unfold insertByKey
    by_cases hx : x.1 < y.1
    · rw [if_pos hx]
    · rw [if_neg hx]
      exact (List.Perm.cons y ih).trans (List.Perm.swap x y rest)

theorem sortItems_perm (l : CoeffMap) : (sortItems l).Perm l := by
  induction l with
  | nil => exact List.Perm.refl _
  | cons y rest ih =>
    unfold sortItems
    exact (insertByKey_perm y (sortItems rest)).trans (List.Perm.cons y ih)

theorem stripSpaces_append (a b : List Char) :
    stripSpaces (a ++ b) = stripSpaces a ++ stripSpaces b := by
  simp [stripSpaces]

theorem stripSpaces_clean (cs : List Char) (h : ∀ c ∈ cs, c ≠ ' ') :
    stripSpaces cs = cs := by
  unfold stripSpaces
  rw [List.filter_eq_self]
  intro c hc
  simp [h c hc]

/-- Every character of a fixed-point rendering is a minus sign, a dot or
a digit. -/
theorem fmtFixed_chars (d : Nat) (q : ℚ) :
    ∀ c ∈ fmtFixed d q, c = '-' ∨ c = '.' ∨ c.isDigit := by
  intro c hc
  unfold fmtFixed at hc
  simp only [] at hc
  rcases List.mem_append.mp hc with h1 | h2
  · rcases List.mem_append.mp h1 with h3 | h4
    · by_cases hq : q < 0
      · rw [if_pos hq] at h3
        exact Or.inl (List.mem_singleton.mp h3)
      · rw [if_neg hq] at h3
        exact absurd h3 (List.not_mem_nil c)
    · exact Or.inr (Or.inr (natDigits_digits _ c h4))
  · rcases List.mem_cons.mp h2 with rfl | h5
    · exact Or.inr (Or.inl rfl)
    · exact Or.inr (Or.inr (padZero_digits d _ (natDigits_digits _) c h5))

theorem renderPart_chars (wp : Bool) (p : Nat) (c : ℚ) :
    ∀ x ∈ renderPart wp p c,
      x = '+' ∨ x = ' ' ∨ x = '-' ∨ x = '.' ∨ x = '*' ∨ x = 'X' ∨ x = '^' ∨ x.isDigit := by
  intro x hx
  unfold renderPart at hx
  rcases List.mem_append.mp hx with h1 | h2
  · rcases List.mem_append.mp h1 with h3 | h4
    · by_cases hw : wp = true
      · rw [if_pos hw] at h3
        exact Or.inl (List.mem_singleton.mp h3)
      · rw [if_neg hw] at h3
        exact absurd h3 (List.not_mem_nil x)
    · rcases List.mem_cons.mp h4 with rfl | h5
      · exact Or.inr (Or.inl rfl)
      · rcases fmtFixed_chars 2 c x h5 with hm | hm | hm
        · exact Or.inr (Or.inr (Or.inl hm))
        · exact Or.inr (Or.inr (Or.inr (Or.inl hm)))
        · exact Or.inr (Or.inr (Or.inr (Or.inr (Or.inr (Or.inr (Or.inr hm))))))
  · rcases List.mem_append.mp h2 with h5 | h6
    · replace h5 : x ∈ [' ', '*', ' ', 'X', '^'] := h5
      rcases List.mem_cons.mp h5 with rfl | g6
      · exact Or.inr (Or.inl rfl)
      · rcases List.mem_cons.mp g6 with rfl | h7
        · exact Or.inr (Or.inr (Or.inr (Or.inr (Or.inl rfl))))
        · rcases List.mem_cons.mp h7 with rfl | h8
          · exact Or.inr (Or.inl rfl)
          · rcases List.mem_cons.mp h8 with rfl | h9
            · exact Or.inr (Or.inr (Or.inr (Or.inr (Or.inr (Or.inl rfl)))))
            · rcases List.mem_cons.mp h9 with rfl | h10
              · exact Or.inr (Or.inr (Or.inr (Or.inr (Or.inr (Or.inr (Or.inl rfl))))))
              · exact absurd h10 (List.not_mem_nil x)
    · exact Or.inr (Or.inr (Or.inr (Or.inr (Or.inr (Or.inr (Or.inr
        (natDigits_digits p x h6)))))))

theorem renderPart_no_eq (wp : Bool) (p : Nat) (c : ℚ) : '=' ∉ renderPart wp p c := by
  intro hmem
  rcases renderPart_chars wp p c '=' hmem with h | h | h | h | h | h | h | h
  · exact absurd h (by decide)
  · exact absurd h (by decide)
  · exact absurd h (by decide)
  · exact absurd h (by decide)
  · exact absurd h (by decide)
  · exact absurd h (by decide)
  · exact absurd h (by decide)
  · exact absurd h (by decide)

theorem joinSpace_not_mem (ps : List (List Char)) (c : Char) (hc : c ≠ ' ')
    (h : ∀ p ∈ ps, c ∉ p) : c ∉ joinSpace ps := by
  induction ps with
  | nil => exact List.not_mem_nil c
  | cons p ps ih =>
    cases ps with
    | nil =>
      show c ∉ joinSpace [p]
      exact h p (List.mem_cons_self _ _)
    | cons q rest =>
      show c ∉ p ++ ' ' :: joinSpace (q :: rest)
      intro hmem
      rcases List.mem_append.mp hmem with hm | hm
      · exact h p (List.mem_cons_self _ _) hm
      · rcases List.mem_cons.mp hm with rfl | hm2
        · exact hc rfl
        · exact ih (fun x hx => h x (List.mem_cons_of_mem p hx)) hm2

theorem stripSpaces_joinSpace (ps : List (List Char)) :
    stripSpaces (joinSpace ps) = (ps.map stripSpaces).flatten := by
  induction ps with
  | nil => rfl
  | cons p ps ih =>
    cases ps with
    | nil => simp [joinSpace, stripSpaces]
    | cons q rest =>
      show stripSpaces (p ++ ' ' :: joinSpace (q :: rest)) = _
      rw [stripSpaces_append]
      have hcons : stripSpaces (' ' :: joinSpace (q :: rest)) =
          stripSpaces (joinSpace (q :: rest)) := by
        unfold stripSpaces
        rw [List.filter_cons]
        simp
      rw [hcons, ih]
      simp

/-- The product of the token sign and the magnitude of the rounded value
is the rounded value. -/
theorem round2_sign (c : ℚ) :
    (if c < 0 then (-1 : ℚ) else 1) * |round2 c| = round2 c := by
  have hR : (0 : ℚ) ≤ ((roundHalfEven (|c| * 100) : ℤ) : ℚ) := by
    have := roundHalfEven_nonneg (|c| * 100) (by positivity)
    exact_mod_cast this
  unfold round2
  by_cases hc : c < 0
  · rw [if_pos hc]
    have h1 : (-1 : ℚ) * ((roundHalfEven (|c| * 100) : ℤ) : ℚ) / 100 ≤ 0 := by linarith
    rw [abs_of_nonpos h1]
    ring
  · rw [if_neg hc]
    have h1 : (0 : ℚ) ≤ 1 * ((roundHalfEven (|c| * 100) : ℤ) : ℚ) / 100 := by linarith
    rw [abs_of_nonneg h1]
    ring

theorem stripSpaces_cons_space (l : List Char) :
    stripSpaces (' ' :: l) = stripSpaces l := by
  simp [stripSpaces]

/-- The stripped rendering of one part: an optional sign, a nonempty
integer digit group, a dot, the two fractional digits, the literal *X^
and a single power digit; its digit groups read back as the 2-decimal
rounding of the coefficient's magnitude. -/
theorem renderTok_shape (wp : Bool) (p : Nat) (c : ℚ) (hwp : wp = true → 0 ≤ c)
    (hp : p ≤ 9) :
    ∃ sgn ip fp pd,
      renderTok (wp, p, c) = sgn ++ (ip ++ '.' :: (fp ++ '*' :: 'X' :: '^' :: [pd])) ∧
      (sgn = [] ∨ sgn = ['+'] ∨ sgn = ['-']) ∧
      (sgn = ['-'] ↔ c < 0) ∧
      ip ≠ [] ∧ (∀ x ∈ ip, x.isDigit) ∧ (∀ x ∈ fp, x.isDigit) ∧ pd.isDigit ∧
      digitsVal [pd] = p ∧
      (digitsVal ip : ℚ) + (digitsVal fp : ℚ) / (10 : ℚ) ^ fp.length = |round2 c| := by
  obtain ⟨pd, hnd, hpdd, hpdv⟩ := natDigits_single p hp
  refine ⟨(if wp = true then ['+'] else []) ++ (if c < 0 then ['-'] else []),
    natDigits ((roundHalfEven (|c| * (10 : ℚ) ^ 2)).toNat / 10 ^ 2),
    padZero 2 (natDigits ((roundHalfEven (|c| * (10 : ℚ) ^ 2)).toNat % 10 ^ 2)),
    pd, ?_, ?_, ?_, natDigits_ne_nil _, natDigits_digits _,
    padZero_digits 2 _ (natDigits_digits _), hpdd, hpdv, ?_⟩
  · show stripSpaces (renderPart wp p c) = _
    have e1 : stripSpaces (if wp = true then ['+'] else []) =
        (if wp = true then ['+'] else []) := by
      by_cases hw : wp = true
      · rw [if_pos hw]
        rfl
      · rw [if_neg hw]
        rfl
    have e2 : stripSpaces (fmtFixed 2 c) = fmtFixed 2 c := by
      apply stripSpaces_clean
      intro x hx
      rcases fmtFixed_chars 2 c x hx with rfl | rfl | hd
      · decide
      · decide
      · exact (isDigit_ne x hd).1
    have e4 : stripSpaces (" * X^".toList) = ['*', 'X', '^'] := by decide
    have e5 : stripSpaces (natDigits p) = [pd] := by
      rw [hnd]
      apply stripSpaces_clean
      intro x hx
      rw [List.mem_singleton.mp hx]
      exact (isDigit_ne pd hpdd).1
    unfold renderPart
    rw [stripSpaces_append, stripSpaces_append, stripSpaces_append,
      stripSpaces_cons_space, e1, e2, e4, e5, fmtFixed_two_eq c]
    simp [List.append_assoc]
  · by_cases hw : wp = true
    · rw [if_pos hw, if_neg (not_lt.mpr (hwp hw)), List.append_nil]
      exact Or.inr (Or.inl rfl)
    · rw [if_neg hw, List.nil_append]
      by_cases hc : c < 0
      · rw [if_pos hc]
        exact Or.inr (Or.inr rfl)
      · rw [if_neg hc]
        exact Or.inl rfl
  · by_cases hw : wp = true
    · rw [if_pos hw, if_neg (not_lt.mpr (hwp hw)), List.append_nil]
      exact iff_of_false (by decide) (not_lt.mpr (hwp hw))
    · rw [if_neg hw, List.nil_append]
      by_cases hc : c < 0
      · rw [if_pos hc]
        exact iff_of_true rfl hc
      · rw [if_neg hc]
        exact iff_of_false (by decide) hc
  · have h102 : |c| * (10 : ℚ) ^ 2 = |c| * 100 := by norm_num
    have hR : (0 : ℤ) ≤ roundHalfEven (|c| * 100) :=
      roundHalfEven_nonneg _ (by positivity)
    have hRq : (0 : ℚ) ≤ ((roundHalfEven (|c| * 100) : ℤ) : ℚ) := by exact_mod_cast hR
    have hcast : (((roundHalfEven (|c| * (10 : ℚ) ^ 2)).toNat : ℕ) : ℚ) =
        ((roundHalfEven (|c| * 100) : ℤ) : ℚ) := by
      rw [h102]
      exact_mod_cast congrArg Int.cast (Int.toNat_of_nonneg hR)
    have habs : |round2 c| = ((roundHalfEven (|c| * 100) : ℤ) : ℚ) / 100 := by
      unfold round2
      by_cases hc0 : c < 0
      · rw [if_pos hc0, abs_of_nonpos (by linarith)]
        ring
      · rw [if_neg hc0, abs_of_nonneg (by linarith)]
        ring
    rw [habs, fmt_readback ((roundHalfEven (|c| * (10 : ℚ) ^ 2)).toNat), hcast]

/-- The reducer's view of one rendered part: it parses to the 2-decimal
rounded magnitude at the part's power, with token sign matching the
coefficient's sign. -/
theorem renderTok_parse (wp : Bool) (p : Nat) (c : ℚ) (hwp : wp = true → 0 ≤ c)
    (hp : p ≤ 9) :
    parse_term (renderTok (wp, p, c)) = some (|round2 c|, p) ∧
    tokSign (renderTok (wp, p, c)) = (if c < 0 then -1 else 1) := by
  obtain ⟨sgn, ip, fp, pd, hshape, hsgn, hsgnneg, hip, hipd, hfpd, hpdd, hpdv, hval⟩ :=
    renderTok_shape wp p c hwp hp
  constructor
  · rw [hshape, parse_term_formatted sgn ip fp pd hsgn hip hipd hfpd hpdd, hval, hpdv]
  · rw [hshape]
    unfold tokSign
    rcases hsgn with rfl | rfl | rfl
    · obtain ⟨i0, ip2, rfl⟩ : ∃ i0 ip2, ip = i0 :: ip2 := by
        cases ip with
        | nil => exact absurd rfl hip
        | cons i0 ip2 => exact ⟨i0, ip2, rfl⟩
      have hhead : (([] ++ (i0 :: ip2 ++ '.' :: (fp ++ '*' :: 'X' :: '^' :: [pd]))).head? :
          Option Char) = some i0 := by
        simp
      rw [hhead]
      have hne : ¬ (some i0 = some '-') := by
        intro he
        have : i0 = '-' := Option.some.inj he
        exact absurd rfl (this ▸ isDigit_ne i0 (hipd i0 (List.mem_cons_self _ _))).2.2.1
      have hcneg : ¬ c < 0 := fun hc => absurd (hsgnneg.mpr hc) (by decide)
      rw [if_neg hne, if_neg hcneg]
    · have hhead : ((['+'] ++ (ip ++ '.' :: (fp ++ '*' :: 'X' :: '^' :: [pd]))).head? :
          Option Char) = some '+' := by
        simp
      rw [hhead]
      have hne : ¬ (some '+' = some ('-' : Char)) := by decide
      have hcneg : ¬ c < 0 := fun hc => absurd (hsgnneg.mpr hc) (by decide)
      rw [if_neg hne, if_neg hcneg]
    · have hhead : ((['-'] ++ (ip ++ '.' :: (fp ++ '*' :: 'X' :: '^' :: [pd]))).head? :
          Option Char) = some '-' := by
        simp
      rw [hhead, if_pos rfl, if_pos (hsgnneg.mp rfl)]

/-- Scanning the concatenation of rendered parts recovers exactly the
parts: the round trip re-tokenizes the formatted string losslessly. -/
theorem findall_renderToks (l : List (Bool × Nat × ℚ))
    (h : ∀ y ∈ l, (y.1 = true → 0 ≤ y.2.2) ∧ y.2.1 ≤ 9) :
    findall ((l.map renderTok).flatten) = l.map renderTok := by
  induction l with
  | nil => rfl
  | cons y l ih =>
    obtain ⟨wp, p, c⟩ := y
    have hy := h _ (List.mem_cons_self _ _)
    obtain ⟨sgn, ip, fp, pd, hshape, hsgn, _, hip, hipd, hfpd, hpdd, _, _⟩ :=
      renderTok_shape wp p c hy.1 hy.2
    rw [List.map_cons, List.flatten_cons]
    have hm : matchTermAt (renderTok (wp, p, c) ++ (l.map renderTok).flatten) =
        some (renderTok (wp, p, c), (l.map renderTok).flatten) := by
      rw [hshape]
      have hc := matchTermAt_complete sgn ip fp pd ((l.map renderTok).flatten)
        hsgn hip hipd hfpd hpdd
      have he : (sgn ++ (ip ++ '.' :: (fp ++ '*' :: 'X' :: '^' :: [pd]))) ++
          (l.map renderTok).flatten =
          sgn ++ (ip ++ '.' :: (fp ++ '*' :: 'X' :: '^' :: pd :: (l.map renderTok).flatten)) := by
        simp [List.append_assoc]
      rw [he, hc]
    rw [findall_step _ _ _ hm, ih (fun z hz => h z (List.mem_cons_of_mem _ hz))]

theorem contrib_renderTok (q : Nat) (wp : Bool) (p : Nat) (c : ℚ)
    (hwp : wp = true → 0 ≤ c) (hp : p ≤ 9) :
    contrib q (renderTok (wp, p, c)) = if p = q then round2 c else 0 := by
  obtain ⟨hparse, hsign⟩ := renderTok_parse wp p c hwp hp
  rw [contrib_of_parse q _ _ _ hparse, hsign]
  by_cases hpq : p = q
  · rw [if_pos hpq, if_pos hpq, round2_sign]
  · rw [if_neg hpq, if_neg hpq]

theorem sumContrib_renderToks (q : Nat) (l : List (Bool × Nat × ℚ))
    (h : ∀ y ∈ l, (y.1 = true → 0 ≤ y.2.2) ∧ y.2.1 ≤ 9) :
    sumContrib q (l.map renderTok) =
      (l.map (fun y => if y.2.1 = q then round2 y.2.2 else 0)).sum := by
  induction l with
  | nil => rfl
  | cons y l ih =>
    obtain ⟨wp, p, c⟩ := y
    have hy := h _ (List.mem_cons_self _ _)
    rw [List.map_cons, sumContrib_cons, contrib_renderTok q wp p c hy.1 hy.2,
      List.map_cons, List.sum_cons, ih (fun z hz => h z (List.mem_cons_of_mem _ hz))]

theorem sum_ifkey_zero (l : List (Bool × Nat × ℚ)) (q : Nat)
    (h : ∀ y ∈ l, y.2.1 ≠ q) :
    (l.map (fun y => if y.2.1 = q then round2 y.2.2 else 0)).sum = 0 := by
  induction l with
  | nil => rfl
  | cons y l ih =>
    rw [List.map_cons, List.sum_cons, if_neg (h y (List.mem_cons_self _ _)),
      ih (fun z hz => h z (List.mem_cons_of_mem _ hz)), add_zero]

theorem sum_ifkey_single (l : List (Bool × Nat × ℚ)) (q : Nat) (wp : Bool) (v : ℚ)
    (hnd : (l.map (fun y => y.2.1)).Nodup) (hmem : (wp, q, v) ∈ l) :
    (l.map (fun y => if y.2.1 = q then round2 y.2.2 else 0)).sum = round2 v := by
  induction l with
  | nil => exact absurd hmem (List.not_mem_nil _)
  | cons y l ih =>
    rw [List.map_cons] at hnd
    have hnd2 := List.nodup_cons.mp hnd
    rcases List.mem_cons.mp hmem with heq | hm2
    · have hzero : ∀ z ∈ l, z.2.1 ≠ q := by
        intro z hz hzq
        apply hnd2.1
        rw [← heq]
        exact hzq ▸ List.mem_map_of_mem (fun y => y.2.1) hz
      rw [List.map_cons, List.sum_cons, ← heq, if_pos rfl, sum_ifkey_zero l q hzero,
        add_zero]
    · have hne : y.2.1 ≠ q := by
        intro hzq
        apply hnd2.1
        have : (wp, q, v).2.1 ∈ l.map (fun y => y.2.1) :=
          List.mem_map_of_mem (fun y => y.2.1) hm2
        exact hzq ▸ this
      rw [List.map_cons, List.sum_cons, if_neg hne, ih hnd2.2 hm2, zero_add]

/-- When every term is suppressed by the formatter, every coefficient of
the map is within the tolerance of zero. -/
theorem filter_nil_small (m : CoeffMap) (q : Nat)
    (hfil : (sortItems m).filter (fun kv => eps < |kv.2|) = []) :
    ¬ eps < |dictGetD m q 0| := by
  intro hlt
  cases hg : dictGet m q with
  | none =>
    unfold dictGetD at hlt
    rw [hg] at hlt
    norm_num [eps] at hlt
  | some v =>
    have hv : dictGetD m q 0 = v := by
      unfold dictGetD
      rw [hg]
      rfl
    rw [hv] at hlt
    have hmem : (q, v) ∈ m := dictGet_mem m q v hg
    have hmem2 : (q, v) ∈ sortItems m := (sortItems_mem m (q, v)).mpr hmem
    have hmem3 : (q, v) ∈ (sortItems m).filter (fun kv => eps < |kv.2|) :=
      List.mem_filter.mpr ⟨hmem2, by simpa using hlt⟩
    rw [hfil] at hmem3
    exact absurd hmem3 (List.not_mem_nil _)

/-- C8 corrected: feeding the formatter's output back through the reducer
always succeeds, and reproduces each coefficient as its 2-decimal rounding
when its magnitude exceeds 1e-6 and as exactly 0 otherwise — so the
round-trip differences are bounded by the 2-decimal rounding error (up to
0.005), not by the 1e-6 zero-suppression threshold alone. -/
theorem C8_round_trip (eq : List Char) (m : CoeffMap)
    (h : get_reduced_form_coeffs eq = some m) :
    ∃ m2, get_reduced_form_coeffs (format_reduced_form m) = some m2 ∧
      ∀ q : Nat, dictGetD m2 q 0 =
        if eps < |dictGetD m q 0| then round2 (dictGetD m q 0) else 0 := by
  have hnd : (dictKeys m).Nodup := reduce_nodup eq m h
  cases hfil : (sortItems m).filter (fun kv => eps < |kv.2|) with
  | nil =>
    have hfmt : format_reduced_form m = "0 * X^0 = 0".toList := by
      unfold format_reduced_form
      simp only []
      rw [buildParts_nil_start (sortItems m), hfil]
      rfl
    refine ⟨[(0, 0)], ?_, ?_⟩
    · rw [hfmt]
      with_unfolding_all decide
    · intro q
      rw [if_neg (filter_nil_small m q hfil)]
      unfold dictGetD
      rw [dictGet_cons]
      by_cases h0 : (0 : Nat) = q
      · rw [if_pos h0]
        rfl
      · rw [if_neg h0]
        rfl
  | cons kv rest =>
    obtain ⟨kp, kc⟩ := kv
    set l : List (Bool × Nat × ℚ) :=
      (false, kp, kc) :: rest.map (fun x => (decide (0 ≤ x.2), x.1, x.2)) with hl
    have hmemitems : ∀ x ∈ (kp, kc) :: rest, x ∈ sortItems m ∧ eps < |x.2| := by
      intro x hx
      have hx2 : x ∈ (sortItems m).filter (fun kv => eps < |kv.2|) := by
        rw [hfil]
        exact hx
      have := List.mem_filter.mp hx2
      exact ⟨this.1, by simpa using this.2⟩
    have hkey9 : ∀ x ∈ (kp, kc) :: rest, x.1 ≤ 9 := by
      intro x hx
      have hxm : x ∈ m := (sortItems_mem m x).mp (hmemitems x hx).1
      exact reduce_keys_le9 eq m h x.1 (dictGet_isSome_of_mem m x.1 x.2 hxm)
    have hl9 : ∀ y ∈ l, (y.1 = true → 0 ≤ y.2.2) ∧ y.2.1 ≤ 9 := by
      intro y hy
      rw [hl] at hy
      rcases List.mem_cons.mp hy with rfl | hy2
      · exact ⟨fun hfalse => absurd hfalse Bool.false_ne_true,
          hkey9 (kp, kc) (List.mem_cons_self _ _)⟩
      · obtain ⟨x, hx, rfl⟩ := List.mem_map.mp hy2
        obtain ⟨x1, x2⟩ := x
        refine ⟨fun hd => of_decide_eq_true hd, ?_⟩
        exact hkey9 (x1, x2) (List.mem_cons_of_mem _ hx)
    have hitems_sub : ((kp, kc) :: rest).Sublist (sortItems m) := by
      rw [← hfil]
      exact List.filter_sublist _
    have hsort_nodup : ((sortItems m).map Prod.fst).Nodup :=
      (((sortItems_perm m).map Prod.fst).nodup_iff).mpr hnd
    have hitems_nodup : (((kp, kc) :: rest).map Prod.fst).Nodup :=
      (hitems_sub.map Prod.fst).nodup hsort_nodup
    have hkeq : l.map (fun y => y.2.1) = ((kp, kc) :: rest).map Prod.fst := by
      rw [hl, List.map_cons, List.map_cons, List.map_map]
      rfl
    have hknodup : (l.map (fun y => y.2.1)).Nodup := by
      rw [hkeq]
      exact hitems_nodup
    have hparts : buildParts (sortItems m) [] =
        l.map (fun y => renderPart y.1 y.2.1 y.2.2) := by
      rw [buildParts_nil_start (sortItems m), hfil, hl, List.map_cons, List.map_map]
      rfl
    have hpne : l.map (fun y => renderPart y.1 y.2.1 y.2.2) ≠ [] := by
      rw [hl, List.map_cons]
      simp
    have hfmt : format_reduced_form m =
        joinSpace (l.map (fun y => renderPart y.1 y.2.1 y.2.2)) ++ " = 0".toList := by
      unfold format_reduced_form
      simp only []
      rw [hparts, if_neg hpne]
    have hnoeq : '=' ∉ joinSpace (l.map (fun y => renderPart y.1 y.2.1 y.2.2)) ++ [' '] := by
      intro hmem
      rcases List.mem_append.mp hmem with hm | hm
      · refine joinSpace_not_mem _ '=' (by decide) ?_ hm
        intro t ht
        obtain ⟨y, hy, rfl⟩ := List.mem_map.mp ht
        exact renderPart_no_eq y.1 y.2.1 y.2.2
      · exact absurd (List.mem_singleton.mp hm) (by decide)
    have hFeq : joinSpace (l.map (fun y => renderPart y.1 y.2.1 y.2.2)) ++ " = 0".toList =
        (joinSpace (l.map (fun y => renderPart y.1 y.2.1 y.2.2)) ++ [' ']) ++
          '=' :: [' ', '0'] := by
      simp [List.append_assoc]
    have hsplit : splitChar '='
        ((joinSpace (l.map (fun y => renderPart y.1 y.2.1 y.2.2)) ++ [' ']) ++
          '=' :: [' ', '0']) =
        (joinSpace (l.map (fun y => renderPart y.1 y.2.1 y.2.2)) ++ [' ']) ::
          splitChar '=' [' ', '0'] :=
      splitChar_append '=' _ _ hnoeq
    have hsL : stripSpaces (joinSpace (l.map (fun y => renderPart y.1 y.2.1 y.2.2)) ++ [' ']) =
        (l.map renderTok).flatten := by
      rw [stripSpaces_append, stripSpaces_joinSpace, List.map_map,
        show stripSpaces [' '] = ([] : List Char) from rfl, List.append_nil]
      rfl
    have hsome : (accumSide 1 (l.map renderTok) []).isSome := by
      rw [accumSide_isSome]
      intro t ht
      obtain ⟨y, hy, rfl⟩ := List.mem_map.mp ht
      obtain ⟨wp, p, c⟩ := y
      have hy9 := hl9 _ hy
      rw [(renderTok_parse wp p c hy9.1 hy9.2).1]
      rfl
    obtain ⟨mL, hmL⟩ := Option.isSome_iff_exists.mp hsome
    have hred : get_reduced_form_coeffs (format_reduced_form m) = some mL := by
      rw [hfmt, hFeq]
      unfold get_reduced_form_coeffs
      rw [hsplit]
      rw [show splitChar '=' [' ', '0'] = [[' ', '0']] from rfl]
      show reduceSides _ [' ', '0'] = some mL
      unfold reduceSides
      rw [hsL, findall_renderToks l hl9]
      rw [show stripSpaces [' ', '0'] = ['0'] from rfl,
        show findall ['0'] = [] from rfl, hmL]
      rfl
    refine ⟨mL, hred, ?_⟩
    intro q
    have hvalL : dictGetD mL q 0 =
        (l.map (fun y => if y.2.1 = q then round2 y.2.2 else 0)).sum := by
      rw [accumSide_getD 1 (l.map renderTok) [] mL hmL q, sumContrib_renderToks q l hl9]
      rw [show dictGetD [] q 0 = 0 from rfl]
      ring
    by_cases hq : eps < |dictGetD m q 0|
    · rw [if_pos hq]
      cases hg : dictGet m q with
      | none =>
        unfold dictGetD at hq
        rw [hg] at hq
        norm_num [eps] at hq
      | some v =>
        have hveq : dictGetD m q 0 = v := by
          unfold dictGetD
          rw [hg]
          rfl
        have hmem : (q, v) ∈ m := dictGet_mem m q v hg
        have hmem2 : (q, v) ∈ (sortItems m).filter (fun kv => eps < |kv.2|) :=
          List.mem_filter.mpr ⟨(sortItems_mem m (q, v)).mpr hmem, by
            rw [hveq] at hq
            simpa using hq⟩
        rw [hfil] at hmem2
        have hex : ∃ wp, (wp, q, v) ∈ l := by
          rcases List.mem_cons.mp hmem2 with heq | hmemrest
          · obtain ⟨hq1, hq2⟩ := Prod.mk.injEq .. ▸ heq
            refine ⟨false, ?_⟩
            rw [hl, hq1, hq2]
            exact List.mem_cons_self _ _
          · refine ⟨decide (0 ≤ v), ?_⟩
            rw [hl]
            exact List.mem_cons_of_mem _
              (List.mem_map_of_mem (fun x => (decide (0 ≤ x.2), x.1, x.2)) hmemrest)
        obtain ⟨wp, hwmem⟩ := hex
        rw [hvalL, sum_ifkey_single l q wp v hknodup hwmem, hveq]
    · rw [if_neg hq, hvalL]
      apply sum_ifkey_zero
      intro y hy hyq
      rw [hl] at hy
      have hymem : (q, y.2.2) ∈ (kp, kc) :: rest := by
        rcases List.mem_cons.mp hy with rfl | hy2
        · rw [← hyq]
          exact List.mem_cons_self _ _
        · obtain ⟨x, hx, rfl⟩ := List.mem_map.mp hy2
          obtain ⟨x1, x2⟩ := x
          have : x1 = q := hyq
          rw [← this]
          exact List.mem_cons_of_mem _ hx
      have hyf : (q, y.2.2) ∈ (sortItems m).filter (fun kv => eps < |kv.2|) := by
        rw [hfil]
        exact hymem
      have := List.mem_filter.mp hyf
      have hym : (q, y.2.2) ∈ m := (sortItems_mem m _).mp this.1
      have hgd : dictGetD m q 0 = y.2.2 := by
        unfold dictGetD
        rw [dictGet_of_mem_nodup m q y.2.2 hnd hym]
        rfl
      apply hq
      rw [hgd]
      simpa using this.2

set_option maxRecDepth 8000 in
/-- C8 counterexample to the claim as stated: the input 1.004 * X^0 = 0
reduces to coefficient 1.004 at power 0, the formatter renders it as
1.00, and re-reducing yields coefficient 1 — a round-trip difference of
0.004, far above the 1e-6 zero-suppression threshold. -/
theorem C8_counterexample :
    get_reduced_form_coeffs ("1.004 * X^0 = 0".toList) = some [(0, 251/250)] ∧
    get_reduced_form_coeffs (format_reduced_form [(0, 251/250)]) = some [(0, 1)] ∧
    eps < |dictGetD [(0, 1)] 0 0 - dictGetD [(0, 251/250)] 0 0| := by
  refine ⟨?_, ?_, ?_⟩
  · with_unfolding_all decide
  · with_unfolding_all decide
  · with_unfolding_all decide

set_option maxRecDepth 8000 in
theorem C8_round_trip_witness :
    ∃ m2, get_reduced_form_coeffs (format_reduced_form [(0, 1), (1, 4)]) = some m2 ∧
      ∀ q : Nat, dictGetD m2 q 0 =
        if eps < |dictGetD [(0, 1), (1, 4)] q 0|
        then round2 (dictGetD [(0, 1), (1, 4)] q 0) else 0 :=
  C8_round_trip ("5 * X^0 + 4 * X^1 = 4 * X^0".toList) [(0, 1), (1, 4)]
    (by with_unfolding_all decide)

example : findall ("5*X^0+4*X^1".toList) = ["5*X^0".toList, "+4*X^1".toList] := by with_unfolding_all decide
example : parse_term ("+4*X^1".toList) = some (4, 1) := by with_unfolding_all decide
example : parse_term ("X^2".toList) = some (1, 2) := by with_unfolding_all decide
example : parse_term ("-X^2".toList) = some (1, 2) := by with_unfolding_all decide
example : get_reduced_form_coeffs ("5 * X^0 + 4 * X^1 = 4 * X^0".toList) =
    some [(0, 1), (1, 4)] := by with_unfolding_all decide
example : get_reduced_form_coeffs ("X^a = 0".toList) = some [] := by with_unfolding_all decide
example : get_reduced_form_coeffs ("X^1".toList) = none := by with_unfolding_all decide
example : get_reduced_form_coeffs ("X^1=X^0=X^9".toList) = some [(1, 1), (0, -1)] := by with_unfolding_all decide
example : findall ("5*X^10".toList) = ["5*X^1".toList] := by with_unfolding_all decide

end Computor
